import Mathlib

/-!
Shallow embedding of the bip39-dict crate (vincenthz/bip39-dict).

Rust machine integers are modelled as `Nat` with explicit `% 2^w`
truncation wherever the source performs an `as u8` / `as u16` cast or a
shift whose result is reduced to the integer width.  Fallible code and
code that can panic (array indexing, `unwrap`, `unreachable!`, failed
`assert!`) is modelled with `Option` / `Except`.
-/

namespace Bip39

/-! ### src/bits.rs : the 11-bit writer state machine -/

/-- `WriteState` from src/bits.rs: the number of pending (partial) bits
is encoded in the constructor, the pending bits themselves in the
payload (a `u8` in the source). -/
inductive WriteState where
  | S0
  | S1 (c : Nat)
  | S2 (c : Nat)
  | S3 (c : Nat)
  | S4 (c : Nat)
  | S5 (c : Nat)
  | S6 (c : Nat)
  | S7 (c : Nat)
deriving DecidableEq, Repr

/-- `NextWrite` from src/bits.rs. -/
inductive NextWrite where
  | One (b : Nat) (s : WriteState)
  | Double (b1 b2 : Nat) (s : WriteState)
deriving DecidableEq, Repr

/-- `WriteState::append11` from src/bits.rs.  The `assert!(v < 2048)` is a
precondition carried as a hypothesis by the theorems below (callers only
pass `MnemonicIndex` values).  Rust `u8` casts and `u8` shifts appear as
`% 256`. -/
def WriteState.append11 : WriteState → Nat → NextWrite
  | .S0, v => .One ((v >>> 3) % 256) (.S3 (v &&& 7))
  | .S1 c, v => .One (((c <<< 7) % 256) ||| ((v >>> 4) % 256)) (.S4 (v &&& 15))
  | .S2 c, v => .One (((c <<< 6) % 256) ||| ((v >>> 5) % 256)) (.S5 (v &&& 31))
  | .S3 c, v => .One (((c <<< 5) % 256) ||| ((v >>> 6) % 256)) (.S6 (v &&& 63))
  | .S4 c, v => .One (((c <<< 4) % 256) ||| ((v >>> 7) % 256)) (.S7 (v &&& 127))
  | .S5 c, v => .Double (((c <<< 3) % 256) ||| ((v >>> 8) % 256)) (v % 256) .S0
  | .S6 c, v =>
      .Double (((c <<< 2) % 256) ||| ((v >>> 9) % 256)) ((v >>> 1) % 256)
        (.S1 ((v % 256) &&& 1))
  | .S7 c, v =>
      .Double (((c <<< 1) % 256) ||| ((v >>> 10) % 256)) ((v >>> 2) % 256)
        (.S2 ((v % 256) &&& 3))

/-- Number of pending bits held by a `WriteState` (the `S<n>` of the
constructor name). -/
def WriteState.bits : WriteState → Nat
  | .S0 => 0
  | .S1 _ => 1
  | .S2 _ => 2
  | .S3 _ => 3
  | .S4 _ => 4
  | .S5 _ => 5
  | .S6 _ => 6
  | .S7 _ => 7

/-- The pending bits held by a `WriteState`. -/
def WriteState.val : WriteState → Nat
  | .S0 => 0
  | .S1 c => c
  | .S2 c => c
  | .S3 c => c
  | .S4 c => c
  | .S5 c => c
  | .S6 c => c
  | .S7 c => c

/-- State invariant: the stored pending bits fit in the pending bit count. -/
def WriteState.WF (s : WriteState) : Prop := s.val < 2 ^ s.bits

/-- `BitWriterBy11::finalize` from src/bits.rs: the byte emitted (if any)
when the writer is finalized in state `s`. -/
def WriteState.finalizeBytes : WriteState → List Nat
  | .S0 => []
  | .S1 c => [(c <<< 7) % 256]
  | .S2 c => [(c <<< 6) % 256]
  | .S3 c => [(c <<< 5) % 256]
  | .S4 c => [(c <<< 4) % 256]
  | .S5 c => [(c <<< 3) % 256]
  | .S6 c => [(c <<< 2) % 256]
  | .S7 c => [(c <<< 1) % 256]

/-- One `BitWriterBy11::write` call: the bytes handed to the `writer`
callback (in order) and the successor state. -/
def writeStep (s : WriteState) (v : Nat) : List Nat × WriteState :=
  match s.append11 v with
  | .One b s' => ([b], s')
  | .Double b1 b2 s' => ([b1, b2], s')

/-- Writing a whole list of symbols through `BitWriterBy11::write`. -/
def writeAll (s : WriteState) : List Nat → List Nat × WriteState
  | [] => ([], s)
  | v :: vs =>
      let p := writeStep s v
      let q := writeAll p.2 vs
      (p.1 ++ q.1, q.2)

/-- The byte stream produced by a fresh `BitWriterBy11` after writing all
of `vs` and calling `finalize` (src/bits.rs, `BitWriterBy11`). -/
def bitWriterBy11 (vs : List Nat) : List Nat :=
  (writeAll .S0 vs).1 ++ (writeAll .S0 vs).2.finalizeBytes

/-! ### src/bits.rs : the 8-bit reader state machine -/

/-- `ReadState` from src/bits.rs (payload is a `u16` in the source). -/
inductive ReadState where
  | S0
  | S1 (c : Nat)
  | S2 (c : Nat)
  | S3 (c : Nat)
  | S4 (c : Nat)
  | S5 (c : Nat)
  | S6 (c : Nat)
  | S7 (c : Nat)
  | S8 (c : Nat)
  | S9 (c : Nat)
  | S10 (c : Nat)
deriving DecidableEq, Repr

/-- `NextRead` from src/bits.rs. -/
inductive NextRead where
  | Zero (s : ReadState)
  | One (v : Nat) (s : ReadState)
deriving DecidableEq, Repr

/-- `ReadState::value_or` from src/bits.rs: `(c as u32) << 8 | (b as u32)`
(the u32 shift truncates modulo `2^32`). -/
def ReadState.value_or : ReadState → Nat → Nat
  | .S0, b => b
  | .S1 c, b => ((c <<< 8) % 4294967296) ||| b
  | .S2 c, b => ((c <<< 8) % 4294967296) ||| b
  | .S3 c, b => ((c <<< 8) % 4294967296) ||| b
  | .S4 c, b => ((c <<< 8) % 4294967296) ||| b
  | .S5 c, b => ((c <<< 8) % 4294967296) ||| b
  | .S6 c, b => ((c <<< 8) % 4294967296) ||| b
  | .S7 c, b => ((c <<< 8) % 4294967296) ||| b
  | .S8 c, b => ((c <<< 8) % 4294967296) ||| b
  | .S9 c, b => ((c <<< 8) % 4294967296) ||| b
  | .S10 c, b => ((c <<< 8) % 4294967296) ||| b

/-- `ReadState::read8` from src/bits.rs.  Rust `as u16` casts appear as
`% 65536`. -/
def ReadState.read8 (s : ReadState) (v : Nat) : NextRead :=
  let nc := s.value_or v
  match s with
  | .S0 => .Zero (.S8 (nc % 65536))
  | .S1 _ => .Zero (.S9 (nc % 65536))
  | .S2 _ => .Zero (.S10 (nc % 65536))
  | .S3 _ => .One (nc % 65536) .S0
  | .S4 _ => .One ((nc >>> 1) % 65536) (.S1 ((nc % 65536) &&& 1))
  | .S5 _ => .One ((nc >>> 2) % 65536) (.S2 ((nc % 65536) &&& 3))
  | .S6 _ => .One ((nc >>> 3) % 65536) (.S3 ((nc % 65536) &&& 7))
  | .S7 _ => .One ((nc >>> 4) % 65536) (.S4 ((nc % 65536) &&& 15))
  | .S8 _ => .One ((nc >>> 5) % 65536) (.S5 ((nc % 65536) &&& 31))
  | .S9 _ => .One ((nc >>> 6) % 65536) (.S6 ((nc % 65536) &&& 63))
  | .S10 _ => .One ((nc >>> 7) % 65536) (.S7 ((nc % 65536) &&& 127))

/-- Number of pending bits held by a `ReadState`. -/
def ReadState.bits : ReadState → Nat
  | .S0 => 0
  | .S1 _ => 1
  | .S2 _ => 2
  | .S3 _ => 3
  | .S4 _ => 4
  | .S5 _ => 5
  | .S6 _ => 6
  | .S7 _ => 7
  | .S8 _ => 8
  | .S9 _ => 9
  | .S10 _ => 10

/-- The pending bits held by a `ReadState`. -/
def ReadState.val : ReadState → Nat
  | .S0 => 0
  | .S1 c => c
  | .S2 c => c
  | .S3 c => c
  | .S4 c => c
  | .S5 c => c
  | .S6 c => c
  | .S7 c => c
  | .S8 c => c
  | .S9 c => c
  | .S10 c => c

/-- State invariant: the stored pending bits fit in the pending bit count. -/
def ReadState.WF (s : ReadState) : Prop := s.val < 2 ^ s.bits

/-! ### Big-endian value of a digit list -/

/-- The value of a big-endian digit list in the given base (base 256 for
byte streams, base 2048 for 11-bit symbol streams). -/
def beVal (base : Nat) : List Nat → Nat
  | [] => 0
  | b :: bs => b * base ^ bs.length + beVal base bs

/-! ### src/index.rs : `MnemonicIndex` -/

/-- `MAX_MNEMONIC_VALUE` from src/index.rs. -/
def MAX_MNEMONIC_VALUE : Nat := 2047

/-- `MnemonicIndex::new` from src/index.rs: the smart constructor
validates the bound and never truncates (a `MnemonicIndex` is modelled as
the bare index value). -/
def MnemonicIndex.new (m : Nat) : Option Nat :=
  if m ≤ MAX_MNEMONIC_VALUE then some m else none

/-! ### The read loop of `Entropy::to_mnemonics` (src/entropy.rs) -/

/-- The read loop of `Entropy::to_mnemonics` (src/entropy.rs lines
203-225): pull bytes from the stream `bs` through `read8` until `k`
symbols have been produced, wrapping each emitted symbol with
`MnemonicIndex::new(..).unwrap()`.  `none` models a panic: the byte
stream ran out (indexing past the end of the checksum array) or
`unwrap` failed. -/
def readWords : List Nat → Nat → ReadState → Option (List Nat)
  | _, 0, _ => some []
  | [], _ + 1, _ => none
  | b :: bs, k + 1, s =>
      match s.read8 b with
      | .Zero s' => readWords bs (k + 1) s'
      | .One n s' =>
          match MnemonicIndex.new n with
          | none => none
          | some m => (readWords bs k s').map (m :: ·)

/-- `BitReaderBy11` from src/bits.rs (the test-only reader): a byte
buffer plus a read state. -/
structure BitReaderBy11 where
  buffer : List Nat
  state : ReadState

/-- `BitReaderBy11::read` from src/bits.rs: reads 1 or 2 bytes and
returns an 11-bit value.  `none` models the panics: indexing an empty
buffer, and the `unreachable!()` branch. -/
def BitReaderBy11.read : BitReaderBy11 → Option (Nat × BitReaderBy11)
  | ⟨[], _⟩ => none
  | ⟨v :: rest, s⟩ =>
      match s.read8 v with
      | .Zero next =>
          match rest with
          | [] => none
          | v2 :: rest2 =>
              match next.read8 v2 with
              | .Zero _ => none
              | .One r2 next2 => some (r2, ⟨rest2, next2⟩)
      | .One n next => some (n, ⟨rest, next⟩)

/-- Calling `BitReaderBy11::read` `k` times in sequence. -/
def BitReaderBy11.readMany (r : BitReaderBy11) : Nat → Option (List Nat)
  | 0 => some []
  | k + 1 =>
      match r.read with
      | none => none
      | some (n, r2) => (r2.readMany k).map (n :: ·)

/-! ### SHA-256

`Entropy::full_checksum_data` calls `cryptoxide::hashing::sha2::Sha256`,
an external dependency of this crate.  The primitive is the standard
SHA-256 of FIPS 180-4, modelled here executably over byte lists
(`Nat` words reduced mod `2^32`). -/

/-- Right rotation of a 32-bit word. -/
def rotr32 (n x : Nat) : Nat := (x >>> n) ||| ((x <<< (32 - n)) % 4294967296)

/-- SHA-256 small sigma 0. -/
def ssig0 (x : Nat) : Nat := rotr32 7 x ^^^ rotr32 18 x ^^^ (x >>> 3)

/-- SHA-256 small sigma 1. -/
def ssig1 (x : Nat) : Nat := rotr32 17 x ^^^ rotr32 19 x ^^^ (x >>> 10)

/-- SHA-256 big sigma 0. -/
def bsig0 (x : Nat) : Nat := rotr32 2 x ^^^ rotr32 13 x ^^^ rotr32 22 x

/-- SHA-256 big sigma 1. -/
def bsig1 (x : Nat) : Nat := rotr32 6 x ^^^ rotr32 11 x ^^^ rotr32 25 x

/-- SHA-256 choice function (32-bit complement written as xor with the
all-ones word). -/
def sha2ch (x y z : Nat) : Nat := (x &&& y) ^^^ ((x ^^^ 4294967295) &&& z)

/-- SHA-256 majority function. -/
def sha2maj (x y z : Nat) : Nat := (x &&& y) ^^^ (x &&& z) ^^^ (y &&& z)

/-- The 64 SHA-256 round constants. -/
def sha2K : List Nat :=
  [1116352408, 1899447441, 3049323471, 3921009573, 961987163, 1508970993, 2453635748,
   2870763221, 3624381080, 310598401, 607225278, 1426881987, 1925078388, 2162078206,
   2614888103, 3248222580, 3835390401, 4022224774, 264347078, 604807628, 770255983,
   1249150122, 1555081692, 1996064986, 2554220882, 2821834349, 2952996808, 3210313671,
   3336571891, 3584528711, 113926993, 338241895, 666307205, 773529912, 1294757372,
   1396182291, 1695183700, 1986661051, 2177026350, 2456956037, 2730485921, 2820302411,
   3259730800, 3345764771, 3516065817, 3600352804, 4094571909, 275423344, 430227734,
   506948616, 659060556, 883997877, 958139571, 1322822218, 1537002063, 1747873779,
   1955562222, 2024104815, 2227730452, 2361852424, 2428436474, 2756734187, 3204031479,
   3329325298]

/-- The SHA-256 initial hash state. -/
def sha2H0 : List Nat :=
  [1779033703, 3144134277, 1013904242, 2773480762, 1359893119, 2600822924, 528734635,
   1541459225]

/-- The 64-bit big-endian byte encoding of a message bit length. -/
def lenBytes64 (n : Nat) : List Nat :=
  [(n >>> 56) % 256, (n >>> 48) % 256, (n >>> 40) % 256, (n >>> 32) % 256,
   (n >>> 24) % 256, (n >>> 16) % 256, (n >>> 8) % 256, n % 256]

/-- SHA-256 message padding: append `128`, zeros, and the 64-bit bit
length, to a multiple of 64 bytes. -/
def sha256pad (msg : List Nat) : List Nat :=
  msg ++ [128] ++ List.replicate ((64 - ((msg.length + 9) % 64)) % 64) 0
    ++ lenBytes64 (8 * msg.length)

/-- Big-endian grouping of bytes into 32-bit words. -/
def toWords : List Nat → List Nat
  | b0 :: b1 :: b2 :: b3 :: rest =>
      (((b0 * 256 + b1) * 256 + b2) * 256 + b3) :: toWords rest
  | _ => []

/-- Split a byte list into 64-byte blocks (the fuel is an upper bound on
the number of blocks and is always sufficient at the call site). -/
def chunks64 : Nat → List Nat → List (List Nat)
  | 0, _ => []
  | _ + 1, [] => []
  | fuel + 1, l => l.take 64 :: chunks64 fuel (l.drop 64)

/-- Extend the 16 message-schedule words by `n` further words. -/
def schedGo : Nat → List Nat → List Nat
  | 0, ws => ws
  | n + 1, ws =>
      schedGo n (ws ++ [(ssig1 (ws.getD (ws.length - 2) 0) + ws.getD (ws.length - 7) 0
        + ssig0 (ws.getD (ws.length - 15) 0) + ws.getD (ws.length - 16) 0) % 4294967296])

/-- One SHA-256 round on the 8-word working state. -/
def sha2round (st : List Nat) (k w : Nat) : List Nat :=
  let a := st.getD 0 0
  let b := st.getD 1 0
  let c := st.getD 2 0
  let d := st.getD 3 0
  let e := st.getD 4 0
  let f := st.getD 5 0
  let g := st.getD 6 0
  let h := st.getD 7 0
  let t1 := (h + bsig1 e + sha2ch e f g + k + w) % 4294967296
  let t2 := (bsig0 a + sha2maj a b c) % 4294967296
  [(t1 + t2) % 4294967296, a, b, c, (d + t1) % 4294967296, e, f, g]

/-- SHA-256 compression of one 64-byte block into the hash state. -/
def compressBlock (h : List Nat) (block : List Nat) : List Nat :=
  let ws := schedGo 48 (toWords block)
  let st := (sha2K.zip ws).foldl (fun st kw => sha2round st kw.1 kw.2) h
  List.zipWith (fun x y => (x + y) % 4294967296) h st

/-- Big-endian byte decomposition of a 32-bit word. -/
def wordBytes (w : Nat) : List Nat :=
  [(w >>> 24) % 256, (w >>> 16) % 256, (w >>> 8) % 256, w % 256]

/-- SHA-256 of a byte list, as the 32-byte digest. -/
def sha256 (msg : List Nat) : List Nat :=
  ((chunks64 (sha256pad msg).length (sha256pad msg)).foldl compressBlock sha2H0).foldr
    (fun w acc => wordBytes w ++ acc) []

/-! ### src/entropy.rs : `Entropy` -/

/-- `EntropyError` from src/entropy.rs. -/
inductive EntropyError where
  | InvalidParameters (checksum_bits total_bits words : Nat)
  | ChecksumInvalid
deriving DecidableEq, Repr

/-- The checksum comparison loop of `Entropy::from_mnemonics`
(src/entropy.rs lines 148-165): `rem` counts the checksum bits still to
compare, `ofs` indexes both byte arrays.  `some true` means every
comparison passed, `some false` models the early `return
Err(ChecksumInvalid)`, `none` models an out-of-bounds index (a panic).
The fuel argument only ensures structural recursion; `rem` drops by 8
each iteration so any fuel above `rem / 8` is enough. -/
def checksumGo : Nat → Nat → Nat → List Nat → List Nat → Option Bool
  | 0, _, _, _, _ => none
  | fuel + 1, rem, ofs, cdata, expected =>
      if rem = 0 then some true
      else if 8 ≤ rem then
        match cdata.get? ofs, expected.get? ofs with
        | some c, some e =>
            if c ≠ e then some false
            else checksumGo fuel (rem - 8) (ofs + 1) cdata expected
        | _, _ => none
      else
        match cdata.get? ofs, expected.get? ofs with
        | some c, some e =>
            let mask := ((1 <<< rem) - 1) <<< (8 - rem)
            if c &&& mask ≠ e &&& mask then some false else some true
        | _, _ => none

/-- `Entropy::from_mnemonics::<W, CS>` from src/entropy.rs for an
`Entropy<N>`:  the `W` symbols (`Mnemonics` indices) are written through
`BitWriterBy11`; the first `N` emitted bytes land in `entropy` (a zero
initialised `[u8; N]`), the remainder in `checksum_data` (a zero
initialised `[u8; 256]`); then the first `CS` bits of `checksum_data`
are compared with the SHA-256 digest of the recovered entropy.  `none`
models the panics of the source: the `assert!(CS <= 256)`, a byte
emitted past `checksum_data` (more than `N + 256` output bytes), the
slice `checksum_data[0..entropy_writer_pos - N]` underflowing, and an
out-of-bounds index in the comparison loop. -/
def from_mnemonics (N W CS : Nat) (symbols : List Nat) :
    Option (Except EntropyError (List Nat)) :=
  if ¬ CS ≤ 256 then none
  else if N * 8 + CS ≠ W * 11 then
    some (.error (.InvalidParameters CS (N * 8 + CS) W))
  else
    let out := bitWriterBy11 symbols
    if N + 256 < out.length then none
    else
      let entropy := out.take N ++ List.replicate (N - out.length) 0
      let expected := sha256 entropy
      if 0 < CS then
        if out.length < N then none
        else
          match checksumGo (CS + 1) CS 0 (out.drop N) expected with
          | none => none
          | some false => some (.error .ChecksumInvalid)
          | some true => some (.ok entropy)
      else some (.ok entropy)

/-- `Entropy::to_mnemonics::<W, CS>` from src/entropy.rs: the byte
source of the read loop is the entropy array followed by the 32-byte
SHA-256 digest (`read_pos` walks `self.0` then `checksum`); the loop
collects `W` symbols through `read8`.  `none` models the panics: the
`assert!(CS <= 256)`, reading past the end of the digest, and
`MnemonicIndex::new(..).unwrap()` failing.  `N` is the length of the
entropy array (fixed by the `Entropy<N>` type). -/
def to_mnemonics (W CS : Nat) (entropy : List Nat) :
    Option (Except EntropyError (List Nat)) :=
  if ¬ CS ≤ 256 then none
  else if entropy.length * 8 + CS ≠ W * 11 then
    some (.error (.InvalidParameters CS (entropy.length * 8 + CS) W))
  else (readWords (entropy ++ sha256 entropy) W .S0).map .ok

/-! ### Byte lists that agree except for low bits of the final byte -/

/-- The final byte of a byte stream (0 for the empty stream). -/
def lastByte (xs : List Nat) : Nat := xs.getLastD 0

/-- The checksum property compared by the loop, stated from an arbitrary
byte offset: all full bytes of the remaining `rem` bits agree, and when a
partial group of `rem % 8` bits remains, its top bits agree under the
mask `((1 << (rem % 8)) - 1) << (8 - rem % 8)`. -/
def checksumOkFrom (rem ofs : Nat) (cdata expected : List Nat) : Prop :=
  (∀ i, ofs ≤ i → i < ofs + rem / 8 → cdata.getD i 0 = expected.getD i 0) ∧
  (rem % 8 ≠ 0 →
    cdata.getD (ofs + rem / 8) 0 &&& (((1 <<< (rem % 8)) - 1) <<< (8 - rem % 8))
      = expected.getD (ofs + rem / 8) 0 &&& (((1 <<< (rem % 8)) - 1) <<< (8 - rem % 8)))

/-- The checksum property of claim C2, from offset 0: the `CS` checksum
bits recovered from the phrase agree with the first `CS` bits of the
digest, full 8-bit groups compared byte-wise and a final partial group
of `CS % 8` bits compared under the mask. -/
def checksumOk (CS : Nat) (cdata expected : List Nat) : Prop :=
  (∀ i < CS / 8, cdata.getD i 0 = expected.getD i 0) ∧
  (CS % 8 ≠ 0 →
    cdata.getD (CS / 8) 0 &&& (((1 <<< (CS % 8)) - 1) <<< (8 - CS % 8))
      = expected.getD (CS / 8) 0 &&& (((1 <<< (CS % 8)) - 1) <<< (8 - CS % 8)))

/-! ### src/mnemonics.rs and src/dictionary/mod.rs

Rust strings (`&str` / `String`) are modelled as `List Char`. -/

/-- `WordNotFound` from src/dictionary/mod.rs. -/
structure WordNotFound where
  word_searched : List Char
deriving DecidableEq, Repr

/-- `MnemonicError` from src/mnemonics.rs (`WordError` holds the word
position and the dictionary error). -/
inductive MnemonicError where
  | WordError (index : Nat) (err : WordNotFound)
  | InvalidWords (expected_words got_words : Nat)
deriving DecidableEq, Repr

/-- The `Language` trait from src/dictionary/mod.rs: a name, a separator
and the two lookup directions. -/
structure Language where
  name : List Char
  separator : List Char
  lookup_mnemonic : List Char → Except WordNotFound Nat
  lookup_word : Nat → List Char

/-- Whether the first list is a prefix of the second (Rust pattern
matching at the head of a string slice). -/
def hasPrefixList : List Char → List Char → Bool
  | [], _ => true
  | _ :: _, [] => false
  | p :: ps, c :: cs => p == c && hasPrefixList ps cs

/-- One pass of Rust `str::split` for a nonempty separator: scan for the
leftmost separator occurrence, emit the piece before it, continue after
it; trailing empty pieces included.  The fuel is an upper bound on the
number of steps (each step either moves one character or consumes the
nonempty separator) and is always sufficient at the call site. -/
def splitGo (sep : List Char) : Nat → List Char → List Char → List (List Char)
  | 0, s, acc => [acc.reverse ++ s]
  | fuel + 1, s, acc =>
      match s with
      | [] => [acc.reverse]
      | c :: rest =>
          if hasPrefixList sep (c :: rest) then
            acc.reverse :: splitGo sep fuel (List.drop sep.length (c :: rest)) []
          else splitGo sep fuel rest (c :: acc)

/-- Rust `str::split`: for an empty pattern the pieces are the empty
string, each character, and the empty string again; otherwise split on
the leftmost occurrences of the separator. -/
def splitOnList (sep s : List Char) : List (List Char) :=
  if sep.isEmpty then [] :: (s.map (fun c => [c]) ++ [[]])
  else splitGo sep (s.length + 1) s []

/-- Rust `str::contains` (substring occurrence). -/
def containsSub : List Char → List Char → Bool
  | [], needle => needle.isEmpty
  | c :: rest, needle => hasPrefixList needle (c :: rest) || containsSub rest needle

/-- `Mnemonics::to_string` from src/mnemonics.rs: push each word,
preceded by the separator for every index after the first. -/
def Mnemonics.to_string (d : Language) : List Nat → List Char
  | [] => []
  | [x] => d.lookup_word x
  | x :: y :: xs => d.lookup_word x ++ d.separator ++ Mnemonics.to_string d (y :: xs)

/-- The resolution loop of `Mnemonics::from_string`: resolve each token
in order, stopping at the first token the dictionary cannot resolve,
tagging the error with that token's position. -/
def resolveGo (d : Language) : Nat → List (List Char) → Except MnemonicError (List Nat)
  | _, [] => .ok []
  | i, t :: ts =>
      match d.lookup_mnemonic t with
      | .error err => .error (.WordError i err)
      | .ok v =>
          match resolveGo d (i + 1) ts with
          | .error e => .error e
          | .ok vs => .ok (v :: vs)

/-- `Mnemonics::from_string` from src/mnemonics.rs: split on the
dictionary separator, check the token count against `W`, then resolve
the tokens in order. -/
def Mnemonics.from_string (d : Language) (W : Nat) (mnemonics : List Char) :
    Except MnemonicError (List Nat) :=
  let toks := splitOnList d.separator mnemonics
  if toks.length = W then resolveGo d 0 toks
  else .error (.InvalidWords W toks.length)

/-- A two-word test dictionary used by the C7 witness. -/
def testDict : Language :=
  { name := List.cons 't' []
    separator := [' ']
    lookup_word := fun _ => ['a']
    lookup_mnemonic := fun w => if w = ['a'] then .ok 0 else .error ⟨w⟩ }

/-! ### Claim C10: the render/parse round trip -/

/-- Claim C10 as stated: for every dictionary whose lookups are mutually
inverse on all 2048 indices and none of whose words contains the
separator string, parsing a rendered phrase returns the phrase. -/
def C10_claim : Prop :=
  ∀ (d : Language) (W : Nat) (m : List Nat),
    m.length = W →
    (∀ v ∈ m, v ≤ 2047) →
    (∀ i, i < 2048 → d.lookup_mnemonic (d.lookup_word i) = .ok i) →
    (∀ i, i < 2048 → containsSub (d.lookup_word i) d.separator = false) →
    Mnemonics.from_string d W (Mnemonics.to_string d m) = .ok m

/-- A dictionary exhibiting separator overlap: every word is one `a`
followed by `b`s and the separator is `aa`.  No single word contains
`aa`, yet two adjacent rendered words produce overlapping `aa`
occurrences. -/
def overlapDict : Language :=
  { name := ['o']
    separator := ['a', 'a']
    lookup_word := fun i => 'a' :: List.replicate i 'b'
    lookup_mnemonic := fun w => .ok (w.length - 1) }

/-- A single-character-separator dictionary used by the C10 witness. -/
def monoDict : Language :=
  { name := ['m']
    separator := [' ']
    lookup_word := fun i => 'w' :: List.replicate i 'z'
    lookup_mnemonic := fun w => .ok (w.length - 1) }

/-! ### Claim C5: the accumulator formulation of the bit packer -/

/-- Spec-side model (§4.1 of the spec, not the source): emit the top 8
bits of the accumulator as long as at least 8 bits are pending.  Returns
the emitted bytes and the remaining pending bit count; `fuel` bounds the
loop. -/
def specEmitGo : Nat → Nat → Nat → List Nat × Nat
  | 0, _, bits => ([], bits)
  | fuel + 1, acc, bits =>
      if 8 ≤ bits then
        let r := specEmitGo fuel acc (bits - 8)
        (((acc >>> (bits - 8)) % 256) :: r.1, r.2)
      else ([], bits)

/-- Spec-side model (§4.1): append an 11-bit symbol to the accumulator
(shift left by 11, OR the symbol in, add 11 pending bits) and then emit
full bytes.  Returns the emitted bytes, the new accumulator and the new
pending bit count. -/
def specAppend11 (acc bits v : Nat) : List Nat × Nat × Nat :=
  let acc2 := (acc <<< 11) ||| v
  let r := specEmitGo (bits + 11) acc2 (bits + 11)
  (r.1, acc2, r.2)

/-- Spec-side model (§4.1): finalization emits one byte of the pending
bits left-justified and zero-padded when the pending count is nonzero,
and nothing when it is zero. -/
def specFinalize (acc bits : Nat) : List Nat :=
  if bits = 0 then [] else [((acc % 2 ^ bits) <<< (8 - bits)) % 256]

/-- Modelled from the spec: the English word table lives in
src/src/dictionary/english.rs, which is not part of the provided
sources.  The spec fixes the separator to a single space and Scenario A
fixes the two words this development needs: index 0 is `abandon` and
index 3 is `about` (the first and fourth words of the standard BIP39
English list).  All other indices map to distinct placeholder words and
`lookup_mnemonic` resolves exactly the two modelled words. -/
def ENGLISH : Language :=
  { name := ['E', 'n', 'g', 'l', 'i', 's', 'h']
    separator := [' ']
    lookup_word := fun i =>
      if i = 0 then "abandon".toList
      else if i = 3 then "about".toList
      else 'w' :: List.replicate i 'z'
    lookup_mnemonic := fun w =>
      if w = "abandon".toList then .ok 0
      else if w = "about".toList then .ok 3
      else .error ⟨w⟩ }

/-- The Scenario A phrase. -/
def scenarioPhrase : List Char :=
  ("abandon abandon abandon abandon abandon abandon abandon abandon " ++
    "abandon abandon abandon about").toList

/-! ### Arithmetic helpers for the bit-level proofs -/

/-- Bitwise or of disjoint parts is addition. -/
theorem lor_small {a b n : Nat} (k : Nat) (h : n = 2 ^ k) (ha : n ∣ a) (hb : b < n) :
    a ||| b = a + b := by
  subst h
  obtain ⟨c, rfl⟩ := ha
  rw [← Nat.mul_add_lt_is_or hb c]

/-- Masking with an all-ones constant is reduction mod a power of two. -/
theorem and_mask (x : Nat) (k m n : Nat) (hm : m = 2 ^ k - 1) (hn : n = 2 ^ k) :
    x &&& m = x % n := by
  subst hm; subst hn; exact Nat.and_pow_two_sub_one_eq_mod x k

/-- Evaluation of `writeStep` in state `S0`. -/
theorem writeStep_S0 (v : Nat) (hv : v < 2048) :
    writeStep .S0 v = ([v / 8], .S3 (v % 8)) := by
  simp only [writeStep, WriteState.append11]
  rw [Nat.shiftRight_eq_div_pow, and_mask v 3 7 8 (by norm_num) (by norm_num)]
  norm_num
  omega

/-- Evaluation of `writeStep` in state `S1`. -/
theorem writeStep_S1 (c v : Nat) (hc : c < 2) (hv : v < 2048) :
    writeStep (.S1 c) v = ([c * 128 + v / 16], .S4 (v % 16)) := by
  simp only [writeStep, WriteState.append11]
  rw [Nat.shiftRight_eq_div_pow, Nat.shiftLeft_eq, and_mask v 4 15 16 (by norm_num) (by norm_num)]
  norm_num
  rw [Nat.mod_eq_of_lt (by omega : c * 128 < 256), Nat.mod_eq_of_lt (by omega : v / 16 < 256),
    lor_small 7 (by norm_num) (Dvd.intro_left c rfl) (by omega)]

/-- Evaluation of `writeStep` in state `S2`. -/
theorem writeStep_S2 (c v : Nat) (hc : c < 4) (hv : v < 2048) :
    writeStep (.S2 c) v = ([c * 64 + v / 32], .S5 (v % 32)) := by
  simp only [writeStep, WriteState.append11]
  rw [Nat.shiftRight_eq_div_pow, Nat.shiftLeft_eq, and_mask v 5 31 32 (by norm_num) (by norm_num)]
  norm_num
  rw [Nat.mod_eq_of_lt (by omega : c * 64 < 256), Nat.mod_eq_of_lt (by omega : v / 32 < 256),
    lor_small 6 (by norm_num) (Dvd.intro_left c rfl) (by omega)]

/-- Evaluation of `writeStep` in state `S3`. -/
theorem writeStep_S3 (c v : Nat) (hc : c < 8) (hv : v < 2048) :
    writeStep (.S3 c) v = ([c * 32 + v / 64], .S6 (v % 64)) := by
  simp only [writeStep, WriteState.append11]
  rw [Nat.shiftRight_eq_div_pow, Nat.shiftLeft_eq, and_mask v 6 63 64 (by norm_num) (by norm_num)]
  norm_num
  rw [Nat.mod_eq_of_lt (by omega : c * 32 < 256), Nat.mod_eq_of_lt (by omega : v / 64 < 256),
    lor_small 5 (by norm_num) (Dvd.intro_left c rfl) (by omega)]

/-- Evaluation of `writeStep` in state `S4`. -/
theorem writeStep_S4 (c v : Nat) (hc : c < 16) (hv : v < 2048) :
    writeStep (.S4 c) v = ([c * 16 + v / 128], .S7 (v % 128)) := by
  simp only [writeStep, WriteState.append11]
  rw [Nat.shiftRight_eq_div_pow, Nat.shiftLeft_eq, and_mask v 7 127 128 (by norm_num) (by norm_num)]
  norm_num
  rw [Nat.mod_eq_of_lt (by omega : c * 16 < 256), Nat.mod_eq_of_lt (by omega : v / 128 < 256),
    lor_small 4 (by norm_num) (Dvd.intro_left c rfl) (by omega)]

/-- Evaluation of `writeStep` in state `S5`. -/
theorem writeStep_S5 (c v : Nat) (hc : c < 32) (hv : v < 2048) :
    writeStep (.S5 c) v = ([c * 8 + v / 256, v % 256], .S0) := by
  simp only [writeStep, WriteState.append11]
  rw [Nat.shiftRight_eq_div_pow, Nat.shiftLeft_eq]
  norm_num
  rw [Nat.mod_eq_of_lt (by omega : c * 8 < 256), Nat.mod_eq_of_lt (by omega : v / 256 < 256),
    lor_small 3 (by norm_num) (Dvd.intro_left c rfl) (by omega)]

/-- Evaluation of `writeStep` in state `S6`. -/
theorem writeStep_S6 (c v : Nat) (hc : c < 64) (hv : v < 2048) :
    writeStep (.S6 c) v = ([c * 4 + v / 512, (v / 2) % 256], .S1 (v % 2)) := by
  simp only [writeStep, WriteState.append11]
  rw [and_mask (v % 256) 1 1 2 (by norm_num) (by norm_num)]
  simp only [Nat.shiftRight_eq_div_pow, Nat.shiftLeft_eq]
  norm_num
  rw [Nat.mod_eq_of_lt (by omega : c * 4 < 256), Nat.mod_eq_of_lt (by omega : v / 512 < 256),
    lor_small 2 (by norm_num) (Dvd.intro_left c rfl) (by omega)]

/-- Evaluation of `writeStep` in state `S7`. -/
theorem writeStep_S7 (c v : Nat) (hc : c < 128) (hv : v < 2048) :
    writeStep (.S7 c) v = ([c * 2 + v / 1024, (v / 4) % 256], .S2 (v % 4)) := by
  simp only [writeStep, WriteState.append11]
  rw [and_mask (v % 256) 2 3 4 (by norm_num) (by norm_num)]
  simp only [Nat.shiftRight_eq_div_pow, Nat.shiftLeft_eq]
  norm_num
  rw [Nat.mod_eq_of_lt (by omega : c * 2 < 256), Nat.mod_eq_of_lt (by omega : v / 1024 < 256),
    lor_small 1 (by norm_num) (Dvd.intro_left c rfl) (by omega)]

theorem beVal_nil (base : Nat) : beVal base [] = 0 := rfl

theorem beVal_cons (base b : Nat) (bs : List Nat) :
    beVal base (b :: bs) = b * base ^ bs.length + beVal base bs := rfl

theorem beVal_append (base : Nat) (xs ys : List Nat) :
    beVal base (xs ++ ys) = beVal base xs * base ^ ys.length + beVal base ys := by
  induction xs with
  | nil => simp [beVal]
  | cons x xs ih =>
      simp only [List.cons_append, beVal_cons, List.length_append, ih]
      ring

theorem beVal_lt (base : Nat) (hbase : 0 < base) (xs : List Nat) (h : ∀ x ∈ xs, x < base) :
    beVal base xs < base ^ xs.length := by
  induction xs with
  | nil => simpa [beVal] using hbase
  | cons x xs ih =>
      have hx : x < base := h x (List.mem_cons_self x xs)
      have ht : beVal base xs < base ^ xs.length := ih fun y hy => h y (List.mem_cons_of_mem x hy)
      have : (x + 1) * base ^ xs.length ≤ base ^ xs.length * base := by
        rw [mul_comm (base ^ xs.length) base]
        exact Nat.mul_le_mul_right _ hx
      calc x * base ^ xs.length + beVal base xs
          < (x + 1) * base ^ xs.length := by nlinarith
        _ ≤ base ^ xs.length * base := this
        _ = base ^ (xs.length + 1) := (pow_succ base xs.length).symm
        _ = base ^ (x :: xs).length := by simp

theorem beVal_inj (base : Nat) (hbase : 0 < base) (xs ys : List Nat)
    (hlen : xs.length = ys.length) (hx : ∀ x ∈ xs, x < base) (hy : ∀ y ∈ ys, y < base)
    (h : beVal base xs = beVal base ys) : xs = ys := by
  induction xs generalizing ys with
  | nil => cases ys with
    | nil => rfl
    | cons y ys => simp at hlen
  | cons x xs ih =>
      cases ys with
      | nil => simp at hlen
      | cons y ys =>
          have hlen' : xs.length = ys.length := by simpa using hlen
          have hxv : beVal base xs < base ^ xs.length :=
            beVal_lt base hbase xs fun a ha => hx a (List.mem_cons_of_mem x ha)
          have hyv : beVal base ys < base ^ ys.length :=
            beVal_lt base hbase ys fun a ha => hy a (List.mem_cons_of_mem y ha)
          have hxy : x = y := by
            by_contra hne
            rw [hlen'] at hxv
            rcases Nat.lt_or_ge x y with hlt | hge
            · have h2 : (x + 1) * base ^ ys.length ≤ y * base ^ ys.length :=
                Nat.mul_le_mul_right _ hlt
              simp only [beVal_cons, hlen'] at h
              nlinarith
            · have hlt : y < x := lt_of_le_of_ne hge (Ne.symm hne)
              have h2 : (y + 1) * base ^ ys.length ≤ x * base ^ ys.length :=
                Nat.mul_le_mul_right _ hlt
              simp only [beVal_cons, hlen'] at h
              nlinarith
          subst hxy
          have htail : beVal base xs = beVal base ys := by
            simp only [beVal_cons, hlen'] at h
            omega
          rw [ih ys hlen' (fun a ha => hx a (List.mem_cons_of_mem x ha))
            (fun a ha => hy a (List.mem_cons_of_mem x ha)) htail]

/-! ### Correctness of the write machine steps -/

/-- `writeStep` is the top-down bit stream of the pending bits followed by
the 11 new bits: bookkeeping of bit counts, well-formedness, byte bounds
and the emitted value. -/
theorem writeStep_correct (s : WriteState) (v : Nat) (hs : s.WF) (hv : v < 2048) :
    8 * (writeStep s v).1.length + (writeStep s v).2.bits = s.bits + 11 ∧
    (writeStep s v).2.WF ∧
    (∀ b ∈ (writeStep s v).1, b < 256) ∧
    beVal 256 (writeStep s v).1 * 2 ^ (writeStep s v).2.bits + (writeStep s v).2.val
      = s.val * 2048 + v := by
  simp only [WriteState.WF] at hs ⊢
  cases s with
  | S0 =>
      rw [writeStep_S0 v hv]
      simp only [WriteState.bits, WriteState.val, beVal, List.length, List.mem_singleton]
      refine ⟨by norm_num, by norm_num; omega, ?_, by norm_num; omega⟩
      rintro b rfl; omega
  | S1 c =>
      simp only [WriteState.bits, WriteState.val] at hs
      rw [writeStep_S1 c v (by omega) hv]
      simp only [WriteState.bits, WriteState.val, beVal, List.length, List.mem_singleton]
      refine ⟨by norm_num, by norm_num; omega, ?_, by norm_num; omega⟩
      rintro b rfl; omega
  | S2 c =>
      simp only [WriteState.bits, WriteState.val] at hs
      rw [writeStep_S2 c v (by omega) hv]
      simp only [WriteState.bits, WriteState.val, beVal, List.length, List.mem_singleton]
      refine ⟨by norm_num, by norm_num; omega, ?_, by norm_num; omega⟩
      rintro b rfl; omega
  | S3 c =>
      simp only [WriteState.bits, WriteState.val] at hs
      rw [writeStep_S3 c v (by omega) hv]
      simp only [WriteState.bits, WriteState.val, beVal, List.length, List.mem_singleton]
      refine ⟨by norm_num, by norm_num; omega, ?_, by norm_num; omega⟩
      rintro b rfl; omega
  | S4 c =>
      simp only [WriteState.bits, WriteState.val] at hs
      rw [writeStep_S4 c v (by omega) hv]
      simp only [WriteState.bits, WriteState.val, beVal, List.length, List.mem_singleton]
      refine ⟨by norm_num, by norm_num; omega, ?_, by norm_num; omega⟩
      rintro b rfl; omega
  | S5 c =>
      simp only [WriteState.bits, WriteState.val] at hs
      rw [writeStep_S5 c v (by omega) hv]
      simp only [WriteState.bits, WriteState.val, beVal, List.length, List.mem_cons,
        List.mem_singleton]
      refine ⟨by norm_num, by norm_num, ?_, by norm_num; omega⟩
      intro b hb
      simp only [List.mem_cons, List.not_mem_nil, or_false] at hb
      rcases hb with rfl | rfl <;> omega
  | S6 c =>
      simp only [WriteState.bits, WriteState.val] at hs
      rw [writeStep_S6 c v (by omega) hv]
      simp only [WriteState.bits, WriteState.val, beVal, List.length, List.mem_cons,
        List.mem_singleton]
      refine ⟨by norm_num, by norm_num; omega, ?_, by norm_num; omega⟩
      intro b hb
      simp only [List.mem_cons, List.not_mem_nil, or_false] at hb
      rcases hb with rfl | rfl <;> omega
  | S7 c =>
      simp only [WriteState.bits, WriteState.val] at hs
      rw [writeStep_S7 c v (by omega) hv]
      simp only [WriteState.bits, WriteState.val, beVal, List.length, List.mem_cons,
        List.mem_singleton]
      refine ⟨by norm_num, by norm_num; omega, ?_, by norm_num; omega⟩
      intro b hb
      simp only [List.mem_cons, List.not_mem_nil, or_false] at hb
      rcases hb with rfl | rfl <;> omega

/-- A write state never holds 8 or more pending bits. -/
theorem WriteState.bits_lt (s : WriteState) : s.bits < 8 := by
  cases s <;> simp [WriteState.bits]

/-- Value flushed by `finalize`: the pending bits left-justified in one
byte (zero when no bits are pending). -/
theorem finalize_val (s : WriteState) (hs : s.WF) :
    beVal 256 s.finalizeBytes = s.val * 2 ^ ((8 - s.bits) % 8) := by
  simp only [WriteState.WF] at hs
  cases s <;>
    simp only [WriteState.finalizeBytes, WriteState.bits, WriteState.val, beVal, beVal_nil,
      Nat.shiftLeft_eq, List.length_nil, pow_zero, mul_one, add_zero, Nat.zero_mul] at hs ⊢ <;>
    norm_num <;>
    omega

/-- `finalize` emits one byte exactly when bits are pending. -/
theorem finalize_len (s : WriteState) :
    s.finalizeBytes.length = (if s.bits = 0 then 0 else 1) := by
  cases s <;> simp [WriteState.finalizeBytes, WriteState.bits]

/-- The byte flushed by `finalize` is a byte. -/
theorem finalize_bytes_lt (s : WriteState) : ∀ b ∈ s.finalizeBytes, b < 256 := by
  cases s with
  | S0 => simp [WriteState.finalizeBytes]
  | S1 c =>
      simp only [WriteState.finalizeBytes, List.mem_singleton]
      rintro b rfl; exact Nat.mod_lt _ (by norm_num)
  | S2 c =>
      simp only [WriteState.finalizeBytes, List.mem_singleton]
      rintro b rfl; exact Nat.mod_lt _ (by norm_num)
  | S3 c =>
      simp only [WriteState.finalizeBytes, List.mem_singleton]
      rintro b rfl; exact Nat.mod_lt _ (by norm_num)
  | S4 c =>
      simp only [WriteState.finalizeBytes, List.mem_singleton]
      rintro b rfl; exact Nat.mod_lt _ (by norm_num)
  | S5 c =>
      simp only [WriteState.finalizeBytes, List.mem_singleton]
      rintro b rfl; exact Nat.mod_lt _ (by norm_num)
  | S6 c =>
      simp only [WriteState.finalizeBytes, List.mem_singleton]
      rintro b rfl; exact Nat.mod_lt _ (by norm_num)
  | S7 c =>
      simp only [WriteState.finalizeBytes, List.mem_singleton]
      rintro b rfl; exact Nat.mod_lt _ (by norm_num)

/-- `finalize` flushes the pending bits left-justified into one byte, or
emits nothing when no bits are pending. -/
theorem finalize_correct (s : WriteState) (hs : s.WF) :
    beVal 256 s.finalizeBytes = s.val * 2 ^ ((8 - s.bits) % 8) ∧
    s.finalizeBytes.length = (if s.bits = 0 then 0 else 1) ∧
    ∀ b ∈ s.finalizeBytes, b < 256 :=
  ⟨finalize_val s hs, finalize_len s, finalize_bytes_lt s⟩

/-- Invariant of `writeAll`: the emitted bytes followed by the pending bits
carry exactly the initial pending bits followed by the written symbols. -/
theorem writeAll_correct (vs : List Nat) (s : WriteState) (hs : s.WF)
    (hvs : ∀ v ∈ vs, v < 2048) :
    8 * (writeAll s vs).1.length + (writeAll s vs).2.bits = s.bits + 11 * vs.length ∧
    (writeAll s vs).2.WF ∧
    (∀ b ∈ (writeAll s vs).1, b < 256) ∧
    beVal 256 (writeAll s vs).1 * 2 ^ (writeAll s vs).2.bits + (writeAll s vs).2.val
      = s.val * 2 ^ (11 * vs.length) + beVal 2048 vs := by
  induction vs generalizing s with
  | nil => exact ⟨by simp [writeAll], hs, by simp [writeAll], by simp [writeAll, beVal]⟩
  | cons v vs ih =>
      obtain ⟨hlen, hwf, hb, hval⟩ := writeStep_correct s v hs (hvs v (by simp))
      obtain ⟨ihlen, ihwf, ihb, ihval⟩ :=
        ih (writeStep s v).2 hwf (fun x hx => hvs x (by simp [hx]))
      simp only [writeAll]
      refine ⟨?_, ihwf, ?_, ?_⟩
      · simp only [List.length_append, List.length_cons]
        omega
      · intro b hb'
        rcases List.mem_append.mp hb' with h | h
        · exact hb b h
        · exact ihb b h
      · have e256 : (256 : Nat) ^ (writeAll (writeStep s v).2 vs).1.length
            = 2 ^ (8 * (writeAll (writeStep s v).2 vs).1.length) := by
          rw [show (256 : Nat) = 2 ^ 8 by norm_num, ← pow_mul]
        have e2048 : (2048 : Nat) ^ vs.length = 2 ^ (11 * vs.length) := by
          rw [show (2048 : Nat) = 2 ^ 11 by norm_num, ← pow_mul]
        calc beVal 256 ((writeStep s v).1 ++ (writeAll (writeStep s v).2 vs).1)
                * 2 ^ (writeAll (writeStep s v).2 vs).2.bits
                + (writeAll (writeStep s v).2 vs).2.val
            = beVal 256 (writeStep s v).1
                * 2 ^ (8 * (writeAll (writeStep s v).2 vs).1.length
                    + (writeAll (writeStep s v).2 vs).2.bits)
                + (beVal 256 (writeAll (writeStep s v).2 vs).1
                    * 2 ^ (writeAll (writeStep s v).2 vs).2.bits
                    + (writeAll (writeStep s v).2 vs).2.val) := by
              rw [beVal_append, e256, pow_add]
              ring
          _ = beVal 256 (writeStep s v).1 * 2 ^ ((writeStep s v).2.bits + 11 * vs.length)
                + ((writeStep s v).2.val * 2 ^ (11 * vs.length) + beVal 2048 vs) := by
              rw [ihlen, ihval]
          _ = (beVal 256 (writeStep s v).1 * 2 ^ (writeStep s v).2.bits + (writeStep s v).2.val)
                * 2 ^ (11 * vs.length) + beVal 2048 vs := by
              rw [pow_add]
              ring
          _ = (s.val * 2048 + v) * 2 ^ (11 * vs.length) + beVal 2048 vs := by rw [hval]
          _ = s.val * 2 ^ (11 * (vs.length + 1)) + beVal 2048 (v :: vs) := by
              rw [beVal_cons, e2048, show 11 * (vs.length + 1) = 11 * vs.length + 11 by ring,
                pow_add]
              ring
          _ = s.val * 2 ^ (11 * (v :: vs).length) + beVal 2048 (v :: vs) := by
              simp

/-- The full `BitWriterBy11` run (write all symbols, then `finalize`):
byte bounds, the exact output length `ceil(11*k/8)`, and the value of the
output byte stream (the symbol stream shifted left by the padding). -/
theorem bitWriterBy11_correct (vs : List Nat) (hvs : ∀ v ∈ vs, v < 2048) :
    (∀ b ∈ bitWriterBy11 vs, b < 256) ∧
    (bitWriterBy11 vs).length = (11 * vs.length + 7) / 8 ∧
    beVal 256 (bitWriterBy11 vs)
      = beVal 2048 vs * 2 ^ (8 * ((11 * vs.length + 7) / 8) - 11 * vs.length) := by
  obtain ⟨hlen, hwf, hb, hval⟩ :=
    writeAll_correct vs .S0 (by simp [WriteState.WF, WriteState.val, WriteState.bits]) hvs
  obtain ⟨fval, flen, fb⟩ := finalize_correct (writeAll .S0 vs).2 hwf
  rw [show WriteState.S0.bits = 0 from rfl] at hlen
  rw [show WriteState.S0.val = 0 from rfl, Nat.zero_mul, Nat.zero_add] at hval
  simp only [WriteState.WF] at hwf
  refine ⟨?_, ?_, ?_⟩
  · intro b hb'
    rcases List.mem_append.mp hb' with h | h
    · exact hb b h
    · exact fb b h
  · simp only [bitWriterBy11, List.length_append, flen]
    have hp := WriteState.bits_lt (writeAll .S0 vs).2
    by_cases h0 : (writeAll .S0 vs).2.bits = 0
    · rw [if_pos h0]; omega
    · rw [if_neg h0]; omega
  · simp only [bitWriterBy11, beVal_append, fval, flen]
    by_cases h0 : (writeAll .S0 vs).2.bits = 0
    · have hv0 : (writeAll .S0 vs).2.val = 0 := by
        rw [h0] at hwf
        omega
      simp only [h0, hv0, if_pos]
      simp only [pow_zero, mul_one, Nat.sub_zero, Nat.mul_zero, Nat.zero_mul, add_zero]
      have : 8 * ((11 * vs.length + 7) / 8) - 11 * vs.length = 0 := by omega
      rw [this]
      simp only [pow_zero, mul_one]
      rw [h0, hv0] at hval
      simpa using hval
    · simp only [if_neg h0]
      have hp : (writeAll .S0 vs).2.bits < 8 := WriteState.bits_lt _
      have hpad : 8 * ((11 * vs.length + 7) / 8) - 11 * vs.length
          = 8 - (writeAll .S0 vs).2.bits := by omega
      have hmod : (8 - (writeAll .S0 vs).2.bits) % 8 = 8 - (writeAll .S0 vs).2.bits := by
        omega
      rw [hpad, hmod, pow_one]
      have expand : beVal 256 (writeAll .S0 vs).1 * 256
            + (writeAll .S0 vs).2.val * 2 ^ (8 - (writeAll .S0 vs).2.bits)
          = (beVal 256 (writeAll .S0 vs).1 * 2 ^ (writeAll .S0 vs).2.bits
              + (writeAll .S0 vs).2.val) * 2 ^ (8 - (writeAll .S0 vs).2.bits) := by
        have h8 : (256 : Nat) = 2 ^ (writeAll .S0 vs).2.bits * 2 ^ (8 - (writeAll .S0 vs).2.bits) := by
          rw [← pow_add,
            show (writeAll .S0 vs).2.bits + (8 - (writeAll .S0 vs).2.bits) = 8 by omega]
          norm_num
        rw [h8]
        ring
      rw [expand, hval]

/-! ### Evaluation of the read machine steps -/

/-- Evaluation of `read8` in state `S0`. -/
theorem read8_S0 (b : Nat) (hb : b < 256) :
    ReadState.read8 .S0 b = .Zero (.S8 b) := by
  simp only [ReadState.read8, ReadState.value_or]
  rw [Nat.mod_eq_of_lt (show b < 65536 by omega)]

/-- Evaluation of `read8` in state `S1`. -/
theorem read8_S1 (c b : Nat) (hc : c < 2) (hb : b < 256) :
    ReadState.read8 (.S1 c) b = .Zero (.S9 (c * 256 + b)) := by
  simp only [ReadState.read8, ReadState.value_or]
  rw [Nat.shiftLeft_eq]
  norm_num
  rw [Nat.mod_eq_of_lt (show c * 256 < 4294967296 by omega),
    lor_small 8 (by norm_num) (Dvd.intro_left c rfl) hb,
    Nat.mod_eq_of_lt (show c * 256 + b < 65536 by omega)]

/-- Evaluation of `read8` in state `S2`. -/
theorem read8_S2 (c b : Nat) (hc : c < 4) (hb : b < 256) :
    ReadState.read8 (.S2 c) b = .Zero (.S10 (c * 256 + b)) := by
  simp only [ReadState.read8, ReadState.value_or]
  rw [Nat.shiftLeft_eq]
  norm_num
  rw [Nat.mod_eq_of_lt (show c * 256 < 4294967296 by omega),
    lor_small 8 (by norm_num) (Dvd.intro_left c rfl) hb,
    Nat.mod_eq_of_lt (show c * 256 + b < 65536 by omega)]

/-- Evaluation of `read8` in state `S3`. -/
theorem read8_S3 (c b : Nat) (hc : c < 8) (hb : b < 256) :
    ReadState.read8 (.S3 c) b = .One (c * 256 + b) .S0 := by
  simp only [ReadState.read8, ReadState.value_or]
  rw [Nat.shiftLeft_eq]
  norm_num
  rw [Nat.mod_eq_of_lt (show c * 256 < 4294967296 by omega),
    lor_small 8 (by norm_num) (Dvd.intro_left c rfl) hb,
    Nat.mod_eq_of_lt (show c * 256 + b < 65536 by omega)]

/-- Evaluation of `read8` in state `S4`. -/
theorem read8_S4 (c b : Nat) (hc : c < 16) (hb : b < 256) :
    ReadState.read8 (.S4 c) b = .One ((c * 256 + b) / 2) (.S1 ((c * 256 + b) % 2)) := by
  simp only [ReadState.read8, ReadState.value_or]
  rw [Nat.shiftLeft_eq]
  norm_num
  rw [Nat.mod_eq_of_lt (show c * 256 < 4294967296 by omega),
    lor_small 8 (by norm_num) (Dvd.intro_left c rfl) hb,
    Nat.shiftRight_eq_div_pow]
  norm_num
  omega

/-- Evaluation of `read8` in state `S5`. -/
theorem read8_S5 (c b : Nat) (hc : c < 32) (hb : b < 256) :
    ReadState.read8 (.S5 c) b = .One ((c * 256 + b) / 4) (.S2 ((c * 256 + b) % 4)) := by
  simp only [ReadState.read8, ReadState.value_or]
  rw [Nat.shiftLeft_eq]
  norm_num
  rw [Nat.mod_eq_of_lt (show c * 256 < 4294967296 by omega),
    lor_small 8 (by norm_num) (Dvd.intro_left c rfl) hb,
    Nat.shiftRight_eq_div_pow]
  norm_num
  refine ⟨by omega, ?_⟩
  rw [and_mask _ 2 3 4 (by norm_num) (by norm_num),
    Nat.mod_mod_of_dvd _ (by norm_num : 4 ∣ 65536)]

/-- Evaluation of `read8` in state `S6`. -/
theorem read8_S6 (c b : Nat) (hc : c < 64) (hb : b < 256) :
    ReadState.read8 (.S6 c) b = .One ((c * 256 + b) / 8) (.S3 ((c * 256 + b) % 8)) := by
  simp only [ReadState.read8, ReadState.value_or]
  rw [Nat.shiftLeft_eq]
  norm_num
  rw [Nat.mod_eq_of_lt (show c * 256 < 4294967296 by omega),
    lor_small 8 (by norm_num) (Dvd.intro_left c rfl) hb,
    Nat.shiftRight_eq_div_pow]
  norm_num
  refine ⟨by omega, ?_⟩
  rw [and_mask _ 3 7 8 (by norm_num) (by norm_num),
    Nat.mod_mod_of_dvd _ (by norm_num : 8 ∣ 65536)]

/-- Evaluation of `read8` in state `S7`. -/
theorem read8_S7 (c b : Nat) (hc : c < 128) (hb : b < 256) :
    ReadState.read8 (.S7 c) b = .One ((c * 256 + b) / 16) (.S4 ((c * 256 + b) % 16)) := by
  simp only [ReadState.read8, ReadState.value_or]
  rw [Nat.shiftLeft_eq]
  norm_num
  rw [Nat.mod_eq_of_lt (show c * 256 < 4294967296 by omega),
    lor_small 8 (by norm_num) (Dvd.intro_left c rfl) hb,
    Nat.shiftRight_eq_div_pow]
  norm_num
  refine ⟨by omega, ?_⟩
  rw [and_mask _ 4 15 16 (by norm_num) (by norm_num),
    Nat.mod_mod_of_dvd _ (by norm_num : 16 ∣ 65536)]

/-- Evaluation of `read8` in state `S8`. -/
theorem read8_S8 (c b : Nat) (hc : c < 256) (hb : b < 256) :
    ReadState.read8 (.S8 c) b = .One ((c * 256 + b) / 32) (.S5 ((c * 256 + b) % 32)) := by
  simp only [ReadState.read8, ReadState.value_or]
  rw [Nat.shiftLeft_eq]
  norm_num
  rw [Nat.mod_eq_of_lt (show c * 256 < 4294967296 by omega),
    lor_small 8 (by norm_num) (Dvd.intro_left c rfl) hb,
    Nat.shiftRight_eq_div_pow]
  norm_num
  refine ⟨by omega, ?_⟩
  rw [and_mask _ 5 31 32 (by norm_num) (by norm_num),
    Nat.mod_mod_of_dvd _ (by norm_num : 32 ∣ 65536)]

/-- Evaluation of `read8` in state `S9`. -/
theorem read8_S9 (c b : Nat) (hc : c < 512) (hb : b < 256) :
    ReadState.read8 (.S9 c) b = .One ((c * 256 + b) / 64) (.S6 ((c * 256 + b) % 64)) := by
  simp only [ReadState.read8, ReadState.value_or]
  rw [Nat.shiftLeft_eq]
  norm_num
  rw [Nat.mod_eq_of_lt (show c * 256 < 4294967296 by omega),
    lor_small 8 (by norm_num) (Dvd.intro_left c rfl) hb,
    Nat.shiftRight_eq_div_pow]
  norm_num
  refine ⟨by omega, ?_⟩
  rw [and_mask _ 6 63 64 (by norm_num) (by norm_num),
    Nat.mod_mod_of_dvd _ (by norm_num : 64 ∣ 65536)]

/-- Evaluation of `read8` in state `S10`. -/
theorem read8_S10 (c b : Nat) (hc : c < 1024) (hb : b < 256) :
    ReadState.read8 (.S10 c) b = .One ((c * 256 + b) / 128) (.S7 ((c * 256 + b) % 128)) := by
  simp only [ReadState.read8, ReadState.value_or]
  rw [Nat.shiftLeft_eq]
  norm_num
  rw [Nat.mod_eq_of_lt (show c * 256 < 4294967296 by omega),
    lor_small 8 (by norm_num) (Dvd.intro_left c rfl) hb,
    Nat.shiftRight_eq_div_pow]
  norm_num
  refine ⟨by omega, ?_⟩
  rw [and_mask _ 7 127 128 (by norm_num) (by norm_num),
    Nat.mod_mod_of_dvd _ (by norm_num : 128 ∣ 65536)]

/-- A read state never holds more than 10 pending bits. -/
theorem ReadState.bits_le (s : ReadState) : s.bits ≤ 10 := by
  cases s <;> simp [ReadState.bits]

/-- A `read8` step that emits nothing appends the byte to the pending bits. -/
theorem read8_zero_correct {s s' : ReadState} {b : Nat} (hs : s.WF) (hb : b < 256)
    (h : s.read8 b = .Zero s') :
    s'.bits = s.bits + 8 ∧ s'.WF ∧ s'.val = s.val * 256 + b := by
  simp only [ReadState.WF] at hs ⊢
  cases s with
  | S0 =>
      rw [read8_S0 b hb] at h
      injection h with h1
      subst h1
      simp only [ReadState.bits, ReadState.val, true_and, and_true]
      omega
  | S1 c =>
      simp only [ReadState.val, ReadState.bits] at hs
      rw [read8_S1 c b (by omega) hb] at h
      injection h with h1
      subst h1
      simp only [ReadState.bits, ReadState.val, true_and, and_true]
      omega
  | S2 c =>
      simp only [ReadState.val, ReadState.bits] at hs
      rw [read8_S2 c b (by omega) hb] at h
      injection h with h1
      subst h1
      simp only [ReadState.bits, ReadState.val, true_and, and_true]
      omega
  | S3 c =>
      simp only [ReadState.val, ReadState.bits] at hs
      rw [read8_S3 c b (by omega) hb] at h
      simp at h
  | S4 c =>
      simp only [ReadState.val, ReadState.bits] at hs
      rw [read8_S4 c b (by omega) hb] at h
      simp at h
  | S5 c =>
      simp only [ReadState.val, ReadState.bits] at hs
      rw [read8_S5 c b (by omega) hb] at h
      simp at h
  | S6 c =>
      simp only [ReadState.val, ReadState.bits] at hs
      rw [read8_S6 c b (by omega) hb] at h
      simp at h
  | S7 c =>
      simp only [ReadState.val, ReadState.bits] at hs
      rw [read8_S7 c b (by omega) hb] at h
      simp at h
  | S8 c =>
      simp only [ReadState.val, ReadState.bits] at hs
      rw [read8_S8 c b (by omega) hb] at h
      simp at h
  | S9 c =>
      simp only [ReadState.val, ReadState.bits] at hs
      rw [read8_S9 c b (by omega) hb] at h
      simp at h
  | S10 c =>
      simp only [ReadState.val, ReadState.bits] at hs
      rw [read8_S10 c b (by omega) hb] at h
      simp at h

/-- A `read8` step that emits a symbol emits the top 11 of the combined
bits; in particular the emitted symbol is always below 2048. -/
theorem read8_one_correct {s s' : ReadState} {n b : Nat} (hs : s.WF) (hb : b < 256)
    (h : s.read8 b = .One n s') :
    s.bits + 8 = 11 + s'.bits ∧ s'.WF ∧ n < 2048 ∧
      n * 2 ^ s'.bits + s'.val = s.val * 256 + b := by
  simp only [ReadState.WF] at hs ⊢
  cases s with
  | S0 =>
      rw [read8_S0 b hb] at h
      simp at h
  | S1 c =>
      simp only [ReadState.val, ReadState.bits] at hs
      rw [read8_S1 c b (by omega) hb] at h
      simp at h
  | S2 c =>
      simp only [ReadState.val, ReadState.bits] at hs
      rw [read8_S2 c b (by omega) hb] at h
      simp at h
  | S3 c =>
      simp only [ReadState.val, ReadState.bits] at hs
      rw [read8_S3 c b (by omega) hb] at h
      injection h with h1 h2
      subst h1
      subst h2
      simp only [ReadState.bits, ReadState.val, true_and, and_true]
      omega
  | S4 c =>
      simp only [ReadState.val, ReadState.bits] at hs
      rw [read8_S4 c b (by omega) hb] at h
      injection h with h1 h2
      subst h1
      subst h2
      simp only [ReadState.bits, ReadState.val, true_and, and_true]
      omega
  | S5 c =>
      simp only [ReadState.val, ReadState.bits] at hs
      rw [read8_S5 c b (by omega) hb] at h
      injection h with h1 h2
      subst h1
      subst h2
      simp only [ReadState.bits, ReadState.val, true_and, and_true]
      omega
  | S6 c =>
      simp only [ReadState.val, ReadState.bits] at hs
      rw [read8_S6 c b (by omega) hb] at h
      injection h with h1 h2
      subst h1
      subst h2
      simp only [ReadState.bits, ReadState.val, true_and, and_true]
      omega
  | S7 c =>
      simp only [ReadState.val, ReadState.bits] at hs
      rw [read8_S7 c b (by omega) hb] at h
      injection h with h1 h2
      subst h1
      subst h2
      simp only [ReadState.bits, ReadState.val, true_and, and_true]
      omega
  | S8 c =>
      simp only [ReadState.val, ReadState.bits] at hs
      rw [read8_S8 c b (by omega) hb] at h
      injection h with h1 h2
      subst h1
      subst h2
      simp only [ReadState.bits, ReadState.val, true_and, and_true]
      omega
  | S9 c =>
      simp only [ReadState.val, ReadState.bits] at hs
      rw [read8_S9 c b (by omega) hb] at h
      injection h with h1 h2
      subst h1
      subst h2
      simp only [ReadState.bits, ReadState.val, true_and, and_true]
      omega
  | S10 c =>
      simp only [ReadState.val, ReadState.bits] at hs
      rw [read8_S10 c b (by omega) hb] at h
      injection h with h1 h2
      subst h1
      subst h2
      simp only [ReadState.bits, ReadState.val, true_and, and_true]
      omega

theorem readWords_zero (bs : List Nat) (s : ReadState) : readWords bs 0 s = some [] := by
  cases bs <;> rfl

theorem readWords_cons (b : Nat) (bs : List Nat) (k : Nat) (s : ReadState) :
    readWords (b :: bs) (k + 1) s =
      match s.read8 b with
      | .Zero s' => readWords bs (k + 1) s'
      | .One n s' =>
          match MnemonicIndex.new n with
          | none => none
          | some m => (readWords bs k s').map (m :: ·) := rfl

/-- Main invariant of the read loop: supplied with enough bytes it
succeeds, produces exactly `k` symbols, all below 2048, consuming exactly
`ceil((11*k - s.bits)/8)` bytes whose big-endian value it reproduces (up
to the `E` bits left over in the final state). -/
theorem readWords_spec (bs : List Nat) (k : Nat) (s : ReadState) (hs : s.WF)
    (hbs : ∀ b ∈ bs, b < 256) (hk : 11 * k ≤ s.bits + 8 * bs.length) :
    ∃ out consumed rest E d,
      readWords bs k s = some out ∧
      bs = consumed ++ rest ∧
      out.length = k ∧
      (∀ v ∈ out, v < 2048) ∧
      consumed.length = (11 * k + 7 - s.bits) / 8 ∧
      11 * k + E = s.bits + 8 * consumed.length ∧
      d < 2 ^ E ∧
      beVal 2048 out * 2 ^ E + d = s.val * 2 ^ (8 * consumed.length) + beVal 256 consumed := by
  induction bs generalizing k s with
  | nil =>
      have hb10 := ReadState.bits_le s
      have hk0 : k = 0 := by simp at hk; omega
      subst hk0
      refine ⟨[], [], [], s.bits, s.val, readWords_zero [] s, rfl, rfl, by simp, ?_, ?_, hs, ?_⟩
      · simp; omega
      · simp
      · simp [beVal]
  | cons b bs ih =>
      have hb10 := ReadState.bits_le s
      cases k with
      | zero =>
          refine ⟨[], [], b :: bs, s.bits, s.val, readWords_zero _ s, rfl, rfl, by simp,
            ?_, ?_, hs, ?_⟩
          · simp; omega
          · simp
          · simp [beVal]
      | succ k =>
          have hb : b < 256 := hbs b (by simp)
          simp only [List.length_cons] at hk
          rcases hr : s.read8 b with s' | ⟨n, s'⟩
          · -- Zero step: the byte is folded into the pending bits
            obtain ⟨hbits', hwf', hval'⟩ := read8_zero_correct hs hb hr
            have hble := ReadState.bits_le s'
            have hk' : 11 * (k + 1) ≤ s'.bits + 8 * bs.length := by omega
            obtain ⟨out, consumed, rest, E, d, hrw, hsplit, hlen, hout, hclen, hE, hd, heq⟩ :=
              ih (k + 1) s' hwf' (fun x hx => hbs x (by simp [hx])) hk'
            have e256 : (256 : Nat) ^ consumed.length = 2 ^ (8 * consumed.length) := by
              rw [show (256 : Nat) = 2 ^ 8 by norm_num, ← pow_mul]
            refine ⟨out, b :: consumed, rest, E, d, ?_, by simp [hsplit], hlen, hout, ?_, ?_,
              hd, ?_⟩
            · rw [readWords_cons, hr]
              exact hrw
            · simp only [List.length_cons, hclen]
              omega
            · simp only [List.length_cons]
              omega
            · calc beVal 2048 out * 2 ^ E + d
                  = s'.val * 2 ^ (8 * consumed.length) + beVal 256 consumed := heq
                _ = (s.val * 256 + b) * 2 ^ (8 * consumed.length) + beVal 256 consumed := by
                    rw [hval']
                _ = s.val * 2 ^ (8 * (b :: consumed).length)
                    + beVal 256 (b :: consumed) := by
                    rw [beVal_cons, e256, List.length_cons,
                      show 8 * (consumed.length + 1) = 8 * consumed.length + 8 by ring,
                      pow_add]
                    ring
          · -- One step: the top 11 bits come out as a symbol
            obtain ⟨hbits', hwf', hn, hval'⟩ := read8_one_correct hs hb hr
            have hble := ReadState.bits_le s'
            have hnew : MnemonicIndex.new n = some n := by
              simp only [MnemonicIndex.new, MAX_MNEMONIC_VALUE]
              rw [if_pos (by omega)]
            have hk' : 11 * k ≤ s'.bits + 8 * bs.length := by omega
            obtain ⟨out, consumed, rest, E, d, hrw, hsplit, hlen, hout, hclen, hE, hd, heq⟩ :=
              ih k s' hwf' (fun x hx => hbs x (by simp [hx])) hk'
            have e256 : (256 : Nat) ^ consumed.length = 2 ^ (8 * consumed.length) := by
              rw [show (256 : Nat) = 2 ^ 8 by norm_num, ← pow_mul]
            have e2048 : (2048 : Nat) ^ out.length = 2 ^ (11 * k) := by
              rw [hlen, show (2048 : Nat) = 2 ^ 11 by norm_num, ← pow_mul]
            refine ⟨n :: out, b :: consumed, rest, E, d, ?_, by simp [hsplit], by simp [hlen],
              ?_, ?_, ?_, hd, ?_⟩
            · rw [readWords_cons, hr]
              dsimp only
              rw [hnew, hrw]
              rfl
            · intro v hv
              rcases List.mem_cons.mp hv with rfl | hv'
              · exact hn
              · exact hout v hv'
            · simp only [List.length_cons, hclen]
              omega
            · simp only [List.length_cons]
              omega
            · calc beVal 2048 (n :: out) * 2 ^ E + d
                  = n * 2 ^ (11 * k) * 2 ^ E + (beVal 2048 out * 2 ^ E + d) := by
                    rw [beVal_cons, e2048]
                    ring
                _ = n * 2 ^ (11 * k + E)
                    + (s'.val * 2 ^ (8 * consumed.length) + beVal 256 consumed) := by
                    rw [heq, pow_add]
                    ring
                _ = n * 2 ^ (s'.bits + 8 * consumed.length)
                    + (s'.val * 2 ^ (8 * consumed.length) + beVal 256 consumed) := by
                    rw [hE]
                _ = (n * 2 ^ s'.bits + s'.val) * 2 ^ (8 * consumed.length)
                    + beVal 256 consumed := by
                    rw [pow_add]
                    ring
                _ = (s.val * 256 + b) * 2 ^ (8 * consumed.length) + beVal 256 consumed := by
                    rw [hval']
                _ = s.val * 2 ^ (8 * (b :: consumed).length)
                    + beVal 256 (b :: consumed) := by
                    rw [beVal_cons, e256, List.length_cons,
                      show 8 * (consumed.length + 1) = 8 * consumed.length + 8 by ring,
                      pow_add]
                    ring

/-- A state reached by a `Zero` step answers every next byte with a
`One` step (the states `S8`, `S9`, `S10` always produce a symbol), which
is why the `unreachable!()` in `BitReaderBy11::read` is sound. -/
theorem read8_zero_shape {s s' : ReadState} {b : Nat} (h : s.read8 b = .Zero s') :
    ∀ b2, ∃ n s2, s'.read8 b2 = .One n s2 := by
  cases s <;> simp only [ReadState.read8] at h <;>
    first
      | (injection h with h1
         subst h1
         intro b2
         exact ⟨_, _, rfl⟩)
      | simp at h

/-- The grouped 1-or-2-byte reads of `BitReaderBy11` agree with the
byte-at-a-time read loop of `to_mnemonics` whenever the latter succeeds. -/
theorem readMany_eq_readWords (k : Nat) :
    ∀ (bs : List Nat) (s : ReadState) (out : List Nat),
      readWords bs k s = some out → BitReaderBy11.readMany ⟨bs, s⟩ k = some out := by
  induction k with
  | zero =>
      intro bs s out h
      rw [readWords_zero] at h
      injection h with h1
      subst h1
      rfl
  | succ k ih =>
      intro bs s out h
      cases bs with
      | nil => exact absurd h (by simp [readWords])
      | cons b bs1 =>
          rw [readWords_cons] at h
          rcases hr : s.read8 b with s' | ⟨n, s'⟩
          · rw [hr] at h
            dsimp only at h
            cases bs1 with
            | nil => exact absurd h (by simp [readWords])
            | cons b2 bs2 =>
                rw [readWords_cons] at h
                rcases hr2 : s'.read8 b2 with s2 | ⟨n2, s2⟩
                · obtain ⟨n3, s3, h3⟩ := read8_zero_shape hr b2
                  rw [h3] at hr2
                  exact absurd hr2 (by simp)
                · rw [hr2] at h
                  dsimp only at h
                  cases hnew : MnemonicIndex.new n2 with
                  | none => rw [hnew] at h; exact absurd h (by simp)
                  | some m =>
                      rw [hnew] at h
                      dsimp only at h
                      have hm : m = n2 := by
                        simp only [MnemonicIndex.new, MAX_MNEMONIC_VALUE] at hnew
                        split at hnew
                        · injection hnew with h4; exact h4.symm
                        · exact absurd hnew (by simp)
                      subst hm
                      cases hw : readWords bs2 k s2 with
                      | none => rw [hw] at h; exact absurd h (by simp)
                      | some out2 =>
                          rw [hw] at h
                          injection h with h5
                          subst h5
                          have hread : BitReaderBy11.read ⟨b :: b2 :: bs2, s⟩
                              = some (m, ⟨bs2, s2⟩) := by
                            simp only [BitReaderBy11.read]
                            rw [hr]
                            dsimp only
                            rw [hr2]
                          simp only [BitReaderBy11.readMany]
                          rw [hread]
                          dsimp only
                          rw [ih bs2 s2 out2 hw]
                          rfl
          · rw [hr] at h
            dsimp only at h
            cases hnew : MnemonicIndex.new n with
            | none => rw [hnew] at h; exact absurd h (by simp)
            | some m =>
                rw [hnew] at h
                dsimp only at h
                have hm : m = n := by
                  simp only [MnemonicIndex.new, MAX_MNEMONIC_VALUE] at hnew
                  split at hnew
                  · injection hnew with h4; exact h4.symm
                  · exact absurd hnew (by simp)
                subst hm
                cases hw : readWords bs1 k s' with
                | none => rw [hw] at h; exact absurd h (by simp)
                | some out2 =>
                    rw [hw] at h
                    injection h with h5
                    subst h5
                    have hread : BitReaderBy11.read ⟨b :: bs1, s⟩ = some (m, ⟨bs1, s'⟩) := by
                      simp only [BitReaderBy11.read]
                      rw [hr]
                    simp only [BitReaderBy11.readMany]
                    rw [hread]
                    dsimp only
                    rw [ih bs1 s' out2 hw]
                    rfl

/-- Euclidean cancellation: equal values with a remainder below the
common power factor force equal quotients and zero remainder. -/
theorem mul_add_lt_cancel {a b d Q : Nat} (hd : d < Q) (h : a * Q + d = b * Q) :
    a = b ∧ d = 0 := by
  have hQ : 0 < Q := lt_of_le_of_lt (Nat.zero_le d) hd
  have e1 : (Q * a + d) / Q = a + d / Q := Nat.mul_add_div hQ a d
  have e2 : (Q * b + 0) / Q = b + 0 / Q := Nat.mul_add_div hQ b 0
  have e3 : Q * a + d = Q * b + 0 := by
    rw [mul_comm Q a, mul_comm Q b]
    omega
  rw [e3, e2, Nat.zero_div] at e1
  rw [Nat.div_eq_of_lt hd] at e1
  have hab : a = b := by omega
  subst hab
  exact ⟨rfl, by omega⟩

/-- C4: for every finite sequence of k values each in [0, 2047], writing
them all through `BitWriterBy11` and finalizing emits exactly
`ceil(11*k/8)` bytes, and reading k values back from those bytes with
`BitReaderBy11` returns the original sequence unchanged. -/
theorem claim_C4 (vs : List Nat) (h : ∀ v ∈ vs, v < 2048) :
    (bitWriterBy11 vs).length = (11 * vs.length + 7) / 8 ∧
    BitReaderBy11.readMany ⟨bitWriterBy11 vs, .S0⟩ vs.length = some vs := by
  obtain ⟨hbytes, hlen, hval⟩ := bitWriterBy11_correct vs h
  refine ⟨hlen, ?_⟩
  have hS0wf : (ReadState.S0).WF := by simp [ReadState.WF, ReadState.val, ReadState.bits]
  have hk : 11 * vs.length ≤ ReadState.S0.bits + 8 * (bitWriterBy11 vs).length := by
    rw [hlen, show ReadState.S0.bits = 0 from rfl]
    omega
  obtain ⟨out, consumed, rest, E, d, hrw, hsplit, holen, hout, hclen, hE, hd, heq⟩ :=
    readWords_spec (bitWriterBy11 vs) vs.length .S0 hS0wf hbytes hk
  rw [show ReadState.S0.bits = 0 from rfl] at hclen hE
  have hclen2 : consumed.length = (bitWriterBy11 vs).length := by
    rw [hclen, hlen]
    omega
  have hrest : rest = [] := by
    have hsl := congrArg List.length hsplit
    simp only [List.length_append] at hsl
    rw [hclen2] at hsl
    exact List.eq_nil_of_length_eq_zero (by omega)
  have hcons : consumed = bitWriterBy11 vs := by
    rw [hsplit, hrest, List.append_nil]
  have hE' : E = 8 * ((11 * vs.length + 7) / 8) - 11 * vs.length := by
    rw [hclen2, hlen] at hE
    omega
  rw [hcons, show ReadState.S0.val = 0 from rfl, Nat.zero_mul, Nat.zero_add, hval, ← hE']
    at heq
  obtain ⟨hv, hd0⟩ := mul_add_lt_cancel hd heq
  have hov : out = vs :=
    beVal_inj 2048 (by norm_num) out vs (by rw [holen]) hout h hv
  rw [hov] at hrw
  exact readMany_eq_readWords vs.length _ .S0 vs hrw

theorem claim_C4_witness :
    (∀ v ∈ [1, 2047, 0], v < 2048) ∧
    ((bitWriterBy11 [1, 2047, 0]).length = (11 * [1, 2047, 0].length + 7) / 8 ∧
      BitReaderBy11.readMany ⟨bitWriterBy11 [1, 2047, 0], .S0⟩ [1, 2047, 0].length
        = some [1, 2047, 0]) :=
  ⟨by decide, claim_C4 [1, 2047, 0] (by decide)⟩

/-! ### Shape of the SHA-256 digest -/

theorem sha2round_length (st : List Nat) (k w : Nat) : (sha2round st k w).length = 8 := rfl

theorem foldl_sha2round_length (l : List (Nat × Nat)) (st : List Nat) (h : st.length = 8) :
    (l.foldl (fun st kw => sha2round st kw.1 kw.2) st).length = 8 := by
  induction l generalizing st with
  | nil => exact h
  | cons kw l ih => exact ih _ (sha2round_length st kw.1 kw.2)

theorem compressBlock_length (h block : List Nat) (hl : h.length = 8) :
    (compressBlock h block).length = 8 := by
  simp only [compressBlock, List.length_zipWith, hl,
    foldl_sha2round_length _ h hl, Nat.min_self]

theorem foldl_compressBlock_length (blocks : List (List Nat)) (h : List Nat)
    (hl : h.length = 8) : (blocks.foldl compressBlock h).length = 8 := by
  induction blocks generalizing h with
  | nil => exact hl
  | cons b blocks ih => exact ih _ (compressBlock_length h b hl)

theorem foldr_wordBytes_length (l : List Nat) :
    (l.foldr (fun w acc => wordBytes w ++ acc) []).length = 4 * l.length := by
  induction l with
  | nil => rfl
  | cons w l ih =>
      simp only [List.foldr_cons, List.length_append, ih, List.length_cons]
      rw [show (wordBytes w).length = 4 from rfl]
      omega

/-- The digest is 32 bytes long. -/
theorem sha256_length (msg : List Nat) : (sha256 msg).length = 32 := by
  rw [sha256, foldr_wordBytes_length,
    foldl_compressBlock_length _ _ (by rfl : sha2H0.length = 8)]

/-- Every digest byte is a byte. -/
theorem sha256_bytes_lt (msg : List Nat) : ∀ b ∈ sha256 msg, b < 256 := by
  rw [sha256]
  generalize (chunks64 (sha256pad msg).length (sha256pad msg)).foldl compressBlock sha2H0 = l
  induction l with
  | nil => simp
  | cons w ws ih =>
      intro b hb
      simp only [List.foldr, List.mem_append] at hb
      rcases hb with h | h
      · simp only [wordBytes, List.mem_cons, List.not_mem_nil, or_false] at h
        rcases h with rfl | rfl | rfl | rfl <;> exact Nat.mod_lt _ (by norm_num)
      · exact ih b h

theorem lastByte_cons_cons (x y : Nat) (l : List Nat) :
    lastByte (x :: y :: l) = lastByte (y :: l) := rfl

theorem lastByte_mem (xs : List Nat) (hne : xs ≠ []) : lastByte xs ∈ xs := by
  induction xs with
  | nil => exact absurd rfl hne
  | cons x l ih =>
      cases l with
      | nil => simp [lastByte, List.getLastD]
      | cons y t =>
          rw [lastByte_cons_cons]
          exact List.mem_cons_of_mem x (ih (by simp))

theorem beVal_last (xs : List Nat) (hne : xs ≠ []) :
    beVal 256 xs = beVal 256 xs.dropLast * 256 + lastByte xs := by
  induction xs with
  | nil => exact absurd rfl hne
  | cons x l ih =>
      cases l with
      | nil => simp [beVal, lastByte, List.getLastD]
      | cons y t =>
          rw [lastByte_cons_cons,
            show (x :: y :: t).dropLast = x :: (y :: t).dropLast from rfl,
            beVal_cons 256 x (y :: t), ih (by simp),
            beVal_cons 256 x ((y :: t).dropLast)]
          have hlen : (y :: t).length = ((y :: t).dropLast).length + 1 := by
            simp [List.length_dropLast]
          rw [hlen, pow_succ]
          ring

theorem base256_unique {a b r1 r2 : Nat} (h1 : r1 < 256) (h2 : r2 < 256)
    (h : a * 256 + r1 = b * 256 + r2) : a = b ∧ r1 = r2 := by
  have ha : (256 * a + r1) / 256 = a + r1 / 256 := Nat.mul_add_div (by norm_num) a r1
  have hb : (256 * b + r2) / 256 = b + r2 / 256 := Nat.mul_add_div (by norm_num) b r2
  rw [Nat.div_eq_of_lt h1] at ha
  rw [Nat.div_eq_of_lt h2] at hb
  have hab : a = b := by
    have e : 256 * a + r1 = 256 * b + r2 := by omega
    rw [e] at ha
    omega
  subst hab
  exact ⟨rfl, by omega⟩

/-- If two equally long byte streams carry values `S * 2^E` and
`S * 2^E + d` with `d < 2^E ≤ 2^8`, they agree except on the low `E`
bits of the final byte. -/
theorem byte_stream_split {xs ys : List Nat} {S d E : Nat}
    (hne : xs ≠ []) (hlen : xs.length = ys.length)
    (hx : ∀ b ∈ xs, b < 256) (hy : ∀ b ∈ ys, b < 256)
    (hE : E ≤ 8) (hd : d < 2 ^ E)
    (hxval : beVal 256 xs = S * 2 ^ E) (hyval : beVal 256 ys = S * 2 ^ E + d) :
    xs.dropLast = ys.dropLast ∧
    2 ^ E ∣ lastByte xs ∧
    lastByte ys = lastByte xs + d := by
  have hyne : ys ≠ [] := by
    intro hy0
    rw [hy0] at hlen
    simp at hlen
    exact hne hlen
  have ex := beVal_last xs hne
  have ey := beVal_last ys hyne
  have hlx : lastByte xs < 256 := hx _ (lastByte_mem xs hne)
  have hly : lastByte ys < 256 := hy _ (lastByte_mem ys hyne)
  have h256 : (2 ^ E : Nat) ∣ 256 := by
    refine ⟨2 ^ (8 - E), ?_⟩
    rw [← pow_add, show E + (8 - E) = 8 by omega]
    norm_num
  have hdvd : 2 ^ E ∣ lastByte xs := by
    have h1 : lastByte xs = S * 2 ^ E - beVal 256 xs.dropLast * 256 := by omega
    rw [h1]
    exact Nat.dvd_sub' (Dvd.intro_left S rfl) (h256.mul_left (beVal 256 xs.dropLast))
  have hsum : lastByte xs + d < 256 := by
    obtain ⟨c, hc⟩ := hdvd
    have hEpos : 0 < 2 ^ E := Nat.pos_pow_of_pos E (by norm_num)
    have h2 : 2 ^ E * 2 ^ (8 - E) = 256 := by
      rw [← pow_add, show E + (8 - E) = 8 by omega]
      norm_num
    have hcB : c < 2 ^ (8 - E) := by
      by_contra hcge
      push_neg at hcge
      have : 2 ^ E * 2 ^ (8 - E) ≤ 2 ^ E * c := Nat.mul_le_mul_left _ hcge
      omega
    have : 2 ^ E * (c + 1) ≤ 2 ^ E * 2 ^ (8 - E) := Nat.mul_le_mul_left _ hcB
    have hmul : 2 ^ E * (c + 1) = 2 ^ E * c + 2 ^ E := by ring
    omega
  have h2 : beVal 256 ys.dropLast * 256 + lastByte ys
      = beVal 256 xs.dropLast * 256 + (lastByte xs + d) := by omega
  obtain ⟨hpre, hlast⟩ := base256_unique hly hsum h2
  refine ⟨?_, hdvd, hlast⟩
  refine beVal_inj 256 (by norm_num) _ _ ?_ ?_ ?_ hpre.symm
  · simp [List.length_dropLast, hlen]
  · intro a ha
    exact hx a (List.dropLast_subset xs ha)
  · intro a ha
    exact hy a (List.dropLast_subset ys ha)

/-- Masking a byte with `((1 << r) - 1) << e` keeps the bits above
position `e`: for `x < 2^(e+r)` it equals clearing the low `e` bits. -/
theorem and_highmask (x e r : Nat) (hx : x < 2 ^ (e + r)) :
    x &&& (((1 <<< r) - 1) <<< e) = x / 2 ^ e * 2 ^ e := by
  have h1 : ((1 <<< r) - 1) <<< e = 2 ^ e * (2 ^ r - 1) := by
    rw [Nat.shiftLeft_eq, Nat.shiftLeft_eq, one_mul, mul_comm]
  rw [h1]
  apply Nat.eq_of_testBit_eq
  intro i
  rw [Nat.testBit_and, Nat.testBit_mul_pow_two,
    show x / 2 ^ e * 2 ^ e = 2 ^ e * (x / 2 ^ e) from mul_comm _ _,
    Nat.testBit_mul_pow_two]
  rcases Nat.lt_or_ge i e with hie | hie
  · simp [show ¬ i ≥ e from by omega]
  · simp only [ge_iff_le, hie, decide_True, Bool.true_and, Nat.testBit_two_pow_sub_one]
    rw [show x / 2 ^ e = x >>> e from (Nat.shiftRight_eq_div_pow x e).symm,
      Nat.testBit_shiftRight, show e + (i - e) = i from by omega]
    rcases Nat.lt_or_ge i (e + r) with hir | hir
    · simp [show i - e < r from by omega]
    · have hxf : x.testBit i = false :=
        Nat.testBit_lt_two_pow
          (lt_of_lt_of_le hx (Nat.pow_le_pow_right (by norm_num) hir))
      simp [hxf]

/-- Two bytes that differ by `d < 2^e`, the smaller a multiple of `2^e`,
agree on the mask keeping the top `r = 8 - e` bits. -/
theorem masked_eq {a b d e r : Nat} (her : e + r = 8) (ha : a < 256)
    (hd : d < 2 ^ e) (hdvd : 2 ^ e ∣ b) (hab : a = b + d) :
    a &&& (((1 <<< r) - 1) <<< e) = b &&& (((1 <<< r) - 1) <<< e) := by
  have hb : b < 256 := by omega
  rw [and_highmask a e r (by rw [her]; norm_num; exact ha),
    and_highmask b e r (by rw [her]; norm_num; exact hb)]
  obtain ⟨c, rfl⟩ := hdvd
  subst hab
  have hEpos : 0 < 2 ^ e := Nat.pos_pow_of_pos e (by norm_num)
  rw [Nat.mul_add_div hEpos, Nat.div_eq_of_lt hd, Nat.mul_div_cancel_left c hEpos]
  ring

theorem checksumOk_iff (CS : Nat) (cdata expected : List Nat) :
    checksumOkFrom CS 0 cdata expected ↔ checksumOk CS cdata expected := by
  unfold checksumOkFrom checksumOk
  constructor
  · rintro ⟨h1, h2⟩
    exact ⟨fun i hi => h1 i (Nat.zero_le i) (by omega), by simpa using h2⟩
  · rintro ⟨h1, h2⟩
    exact ⟨fun i _ hi => h1 i (by omega), by simpa using h2⟩

theorem get?_eq_some_getD {l : List Nat} {i : Nat} (h : i < l.length) :
    l.get? i = some (l.getD i 0) := by
  rw [List.getD_eq_getElem?_getD]
  cases hg : l[i]? with
  | none =>
      rw [List.getElem?_eq_none_iff] at hg
      omega
  | some a => simp [List.get?_eq_getElem?, hg]

/-- Full characterization of the checksum comparison loop of
`from_mnemonics`: with enough fuel and both arrays long enough, it
returns `some true` exactly when `checksumOkFrom` holds, `some false`
otherwise. -/
theorem checksumGo_spec (fuel : Nat) :
    ∀ (rem ofs : Nat) (cdata expected : List Nat),
      rem < 8 * fuel →
      ofs + (rem + 7) / 8 ≤ cdata.length →
      ofs + (rem + 7) / 8 ≤ expected.length →
      ∃ r : Bool, checksumGo fuel rem ofs cdata expected = some r ∧
        (r = true ↔ checksumOkFrom rem ofs cdata expected) := by
  induction fuel with
  | zero =>
      intro rem ofs cdata expected hfuel hc he
      omega
  | succ fuel ih =>
      intro rem ofs cdata expected hfuel hc he
      by_cases h0 : rem = 0
      · subst h0
        refine ⟨true, by simp [checksumGo], ?_⟩
        refine ⟨fun _ => ⟨fun i hi hi2 => by omega, fun h => absurd rfl h⟩, fun _ => rfl⟩
      · have hofs : ofs < cdata.length := by omega
        have hofse : ofs < expected.length := by omega
        obtain hcg := get?_eq_some_getD hofs
        obtain heg := get?_eq_some_getD hofse
        by_cases h8 : 8 ≤ rem
        · by_cases hco : cdata.getD ofs 0 = expected.getD ofs 0
          · -- matching full byte: the loop continues
            obtain ⟨r, hr, hiff⟩ := ih (rem - 8) (ofs + 1) cdata expected (by omega)
              (by omega) (by omega)
            refine ⟨r, ?_, ?_⟩
            · rw [show checksumGo (fuel + 1) rem ofs cdata expected
                  = if rem = 0 then some true
                    else if 8 ≤ rem then
                      match cdata.get? ofs, expected.get? ofs with
                      | some c, some e =>
                          if c ≠ e then some false
                          else checksumGo fuel (rem - 8) (ofs + 1) cdata expected
                      | _, _ => none
                    else
                      match cdata.get? ofs, expected.get? ofs with
                      | some c, some e =>
                          let mask := ((1 <<< rem) - 1) <<< (8 - rem)
                          if c &&& mask ≠ e &&& mask then some false else some true
                      | _, _ => none
                  from rfl,
                if_neg h0, if_pos h8, hcg, heg]
              dsimp only
              rw [if_neg (not_not_intro hco)]
              exact hr
            · rw [hiff]
              unfold checksumOkFrom
              constructor
              · rintro ⟨h1, h2⟩
                refine ⟨?_, ?_⟩
                · intro i hi hi2
                  rcases Nat.eq_or_lt_of_le hi with rfl | hgt
                  · exact hco
                  · exact h1 i (by omega) (by omega)
                · intro hne
                  rw [show ofs + rem / 8 = ofs + 1 + (rem - 8) / 8 by omega,
                    show rem % 8 = (rem - 8) % 8 by omega]
                  exact h2 (by omega)
              · rintro ⟨h1, h2⟩
                refine ⟨?_, ?_⟩
                · intro i hi hi2
                  exact h1 i (by omega) (by omega)
                · intro hne
                  rw [show ofs + 1 + (rem - 8) / 8 = ofs + rem / 8 by omega,
                    show (rem - 8) % 8 = rem % 8 by omega]
                  exact h2 (by omega)
          · -- mismatching full byte: early ChecksumInvalid
            refine ⟨false, ?_, ?_⟩
            · rw [show checksumGo (fuel + 1) rem ofs cdata expected
                  = if rem = 0 then some true
                    else if 8 ≤ rem then
                      match cdata.get? ofs, expected.get? ofs with
                      | some c, some e =>
                          if c ≠ e then some false
                          else checksumGo fuel (rem - 8) (ofs + 1) cdata expected
                      | _, _ => none
                    else
                      match cdata.get? ofs, expected.get? ofs with
                      | some c, some e =>
                          let mask := ((1 <<< rem) - 1) <<< (8 - rem)
                          if c &&& mask ≠ e &&& mask then some false else some true
                      | _, _ => none
                  from rfl,
                if_neg h0, if_pos h8, hcg, heg]
              dsimp only
              rw [if_pos hco]
            · refine ⟨fun hft => absurd hft (by simp), fun hok => ?_⟩
              exact absurd (hok.1 ofs (le_refl ofs) (by omega)) hco
        · -- partial group of rem (< 8) bits
          have hrem8 : rem % 8 = rem := Nat.mod_eq_of_lt (by omega)
          by_cases hm : cdata.getD ofs 0 &&& (((1 <<< rem) - 1) <<< (8 - rem))
              = expected.getD ofs 0 &&& (((1 <<< rem) - 1) <<< (8 - rem))
          · refine ⟨true, ?_, ?_⟩
            · rw [show checksumGo (fuel + 1) rem ofs cdata expected
                  = if rem = 0 then some true
                    else if 8 ≤ rem then
                      match cdata.get? ofs, expected.get? ofs with
                      | some c, some e =>
                          if c ≠ e then some false
                          else checksumGo fuel (rem - 8) (ofs + 1) cdata expected
                      | _, _ => none
                    else
                      match cdata.get? ofs, expected.get? ofs with
                      | some c, some e =>
                          let mask := ((1 <<< rem) - 1) <<< (8 - rem)
                          if c &&& mask ≠ e &&& mask then some false else some true
                      | _, _ => none
                  from rfl,
                if_neg h0, if_neg h8, hcg, heg]
              dsimp only
              rw [if_neg (not_not_intro hm)]
            · refine ⟨fun _ => ?_, fun _ => rfl⟩
              unfold checksumOkFrom
              refine ⟨fun i hi hi2 => by omega, fun _ => ?_⟩
              rw [show ofs + rem / 8 = ofs by omega, hrem8]
              exact hm
          · refine ⟨false, ?_, ?_⟩
            · rw [show checksumGo (fuel + 1) rem ofs cdata expected
                  = if rem = 0 then some true
                    else if 8 ≤ rem then
                      match cdata.get? ofs, expected.get? ofs with
                      | some c, some e =>
                          if c ≠ e then some false
                          else checksumGo fuel (rem - 8) (ofs + 1) cdata expected
                      | _, _ => none
                    else
                      match cdata.get? ofs, expected.get? ofs with
                      | some c, some e =>
                          let mask := ((1 <<< rem) - 1) <<< (8 - rem)
                          if c &&& mask ≠ e &&& mask then some false else some true
                      | _, _ => none
                  from rfl,
                if_neg h0, if_neg h8, hcg, heg]
              dsimp only
              rw [if_pos hm]
            · refine ⟨fun hft => absurd hft (by simp), fun hok => ?_⟩
              have := hok.2 (by omega)
              rw [show ofs + rem / 8 = ofs by omega, hrem8] at this
              exact absurd this hm

/-! ### Index bookkeeping on byte lists -/

theorem getD_dropLast {l : List Nat} {j : Nat} (h : j + 1 < l.length) :
    l.dropLast.getD j 0 = l.getD j 0 := by
  induction l generalizing j with
  | nil => simp at h
  | cons x t ih =>
      cases t with
      | nil => simp at h
      | cons y u =>
          cases j with
          | zero => rfl
          | succ j =>
              have : (x :: y :: u).dropLast.getD (j + 1) 0 = (y :: u).dropLast.getD j 0 := rfl
              rw [this, ih (by simpa using h)]
              rfl

theorem getD_drop (l : List Nat) (n j : Nat) : (l.drop n).getD j 0 = l.getD (n + j) 0 := by
  induction l generalizing n with
  | nil => simp
  | cons x t ih =>
      cases n with
      | zero => simp
      | succ n =>
          have h1 : ((x :: t).drop (n + 1)) = t.drop n := rfl
          rw [h1, ih n, show n + 1 + j = n + j + 1 by omega]
          rfl

theorem getD_append_left {l1 l2 : List Nat} {i : Nat} (h : i < l1.length) :
    (l1 ++ l2).getD i 0 = l1.getD i 0 := by
  induction l1 generalizing i with
  | nil => simp at h
  | cons x t ih =>
      cases i with
      | zero => rfl
      | succ i =>
          have h1 : ((x :: t) ++ l2).getD (i + 1) 0 = (t ++ l2).getD i 0 := rfl
          rw [h1, ih (by simpa using h)]
          rfl

theorem lastByte_getD (l : List Nat) : lastByte l = l.getD (l.length - 1) 0 := by
  induction l with
  | nil => rfl
  | cons x t ih =>
      cases t with
      | nil => rfl
      | cons y u =>
          rw [lastByte_cons_cons, ih]
          rfl

/-- C3: whenever `CS ≤ 256` and the size contract `N*8 + CS = W*11`
fails, both `to_mnemonics` and `from_mnemonics` return the
`InvalidParameters` error carrying `checksum_bits = CS`,
`total_bits = N*8 + CS` and `words = W`, producing nothing else. -/
theorem claim_C3 (N W CS : Nat) (e symbols : List Nat) (hCS : CS ≤ 256)
    (hmis : N * 8 + CS ≠ W * 11) (heN : e.length = N) :
    to_mnemonics W CS e = some (.error (.InvalidParameters CS (N * 8 + CS) W)) ∧
    from_mnemonics N W CS symbols
      = some (.error (.InvalidParameters CS (N * 8 + CS) W)) := by
  constructor
  · simp only [to_mnemonics, heN]
    rw [if_neg (not_not_intro hCS), if_pos hmis]
  · simp only [from_mnemonics]
    rw [if_neg (not_not_intro hCS), if_pos hmis]

theorem claim_C3_witness :
    to_mnemonics 1 4 [0, 0] = some (.error (.InvalidParameters 4 20 1)) ∧
    from_mnemonics 2 1 4 [5] = some (.error (.InvalidParameters 4 20 1)) :=
  claim_C3 2 1 4 [0, 0] [5] (by norm_num) (by norm_num) rfl

/-- C2: for a valid size triple and any phrase of `W` symbols,
`from_mnemonics` returns `ChecksumInvalid` exactly when the `CS`
checksum bits recovered from the phrase differ from the first `CS` bits
of the SHA-256 digest of the recovered entropy bytes (full 8-bit groups
byte-wise, a final partial group of `CS % 8` bits under the mask
`((1 << (CS % 8)) - 1) << (8 - CS % 8)`); when `CS = 0` no comparison is
made and the call succeeds. -/
theorem claim_C2 (N W CS : Nat) (symbols : List Nat) (hCS : CS ≤ 256)
    (hvalid : N * 8 + CS = W * 11) (hsym : symbols.length = W)
    (hlt : ∀ v ∈ symbols, v < 2048) :
    (CS = 0 → from_mnemonics N W CS symbols
        = some (.ok ((bitWriterBy11 symbols).take N))) ∧
    (from_mnemonics N W CS symbols = some (.error .ChecksumInvalid)
      ↔ ¬ checksumOk CS ((bitWriterBy11 symbols).drop N)
          (sha256 ((bitWriterBy11 symbols).take N))) := by
  obtain ⟨hb, hlen, hval⟩ := bitWriterBy11_correct symbols hlt
  rw [hsym] at hlen
  have hmlen : (bitWriterBy11 symbols).length = N + (CS + 7) / 8 := by
    rw [hlen]
    omega
  have hcd : ((bitWriterBy11 symbols).drop N).length = (CS + 7) / 8 := by
    rw [List.length_drop, hmlen]
    omega
  have hent : (bitWriterBy11 symbols).take N
      ++ List.replicate (N - (bitWriterBy11 symbols).length) 0
      = (bitWriterBy11 symbols).take N := by
    rw [show N - (bitWriterBy11 symbols).length = 0 by omega, List.replicate_zero,
      List.append_nil]
  have hunf : from_mnemonics N W CS symbols =
      (if 0 < CS then
        if (bitWriterBy11 symbols).length < N then none
        else
          match checksumGo (CS + 1) CS 0 ((bitWriterBy11 symbols).drop N)
              (sha256 ((bitWriterBy11 symbols).take N)) with
          | none => none
          | some false => some (.error .ChecksumInvalid)
          | some true => some (.ok ((bitWriterBy11 symbols).take N))
      else some (.ok ((bitWriterBy11 symbols).take N))) := by
    simp only [from_mnemonics, hent]
    rw [if_neg (not_not_intro hCS), if_neg (show ¬ N * 8 + CS ≠ W * 11 by omega),
      if_neg (show ¬ N + 256 < (bitWriterBy11 symbols).length by omega)]
  constructor
  · intro hcs0
    rw [hunf, if_neg (by omega)]
  · by_cases hcs0 : CS = 0
    · rw [hunf, if_neg (by omega)]
      constructor
      · intro hcontra
        simp at hcontra
      · intro hok
        exfalso
        apply hok
        subst hcs0
        exact ⟨fun i hi => by omega, fun hne => absurd rfl hne⟩
    · obtain ⟨r, hr, hiff⟩ := checksumGo_spec (CS + 1) CS 0 ((bitWriterBy11 symbols).drop N)
        (sha256 ((bitWriterBy11 symbols).take N)) (by omega)
        (by rw [hcd]; omega)
        (by rw [sha256_length]; omega)
      rw [hunf, if_pos (by omega), if_neg (show ¬ (bitWriterBy11 symbols).length < N by omega),
        hr]
      cases r with
      | true =>
          constructor
          · intro hcontra
            simp at hcontra
          · intro hok
            exact absurd ((checksumOk_iff _ _ _).mp (hiff.mp rfl)) hok
      | false =>
          constructor
          · intro _
            intro hok
            have : (false : Bool) = true := hiff.mpr ((checksumOk_iff _ _ _).mpr hok)
            simp at this
          · intro _
            rfl

theorem claim_C2_witness :
    (3 = 0 → from_mnemonics 1 1 3 [0] = some (.ok ((bitWriterBy11 [0]).take 1))) ∧
    (from_mnemonics 1 1 3 [0] = some (.error .ChecksumInvalid)
      ↔ ¬ checksumOk 3 ((bitWriterBy11 [0]).drop 1) (sha256 ((bitWriterBy11 [0]).take 1))) :=
  claim_C2 1 1 3 [0] (by norm_num) (by norm_num) rfl (by decide)

/-- C1: for every `N`, `W`, `CS` with `N*8 + CS = W*11` and `CS ≤ 256`,
and every `N`-byte entropy value `e`, decoding the phrase produced by
encoding `e` returns exactly `e`: the `to_mnemonics` call succeeds (no
panic) and `from_mnemonics` on its result is `Ok(e)`. -/
theorem claim_C1 (W CS : Nat) (e : List Nat) (hCS : CS ≤ 256)
    (hvalid : e.length * 8 + CS = W * 11) (he : ∀ b ∈ e, b < 256) :
    ∃ vs, to_mnemonics W CS e = some (.ok vs) ∧
      from_mnemonics e.length W CS vs = some (.ok e) := by
  have hsha_len : (sha256 e).length = 32 := sha256_length e
  have hbs_lt : ∀ b ∈ e ++ sha256 e, b < 256 := by
    intro b hb
    rcases List.mem_append.mp hb with h | h
    · exact he b h
    · exact sha256_bytes_lt e b h
  have hbs_len : (e ++ sha256 e).length = e.length + 32 := by
    rw [List.length_append, hsha_len]
  have hS0wf : (ReadState.S0).WF := by simp [ReadState.WF, ReadState.val, ReadState.bits]
  have hk : 11 * W ≤ ReadState.S0.bits + 8 * (e ++ sha256 e).length := by
    rw [hbs_len, show ReadState.S0.bits = 0 from rfl]
    omega
  obtain ⟨vs, consumed, rest, E, d, hrw, hsplit, hvslen, hvs, hclen, hE, hd, heq⟩ :=
    readWords_spec (e ++ sha256 e) W .S0 hS0wf hbs_lt hk
  rw [show ReadState.S0.bits = 0 from rfl] at hclen hE
  rw [show ReadState.S0.val = 0 from rfl, Nat.zero_mul, Nat.zero_add] at heq
  refine ⟨vs, ?_, ?_⟩
  · simp only [to_mnemonics]
    rw [if_neg (not_not_intro hCS), if_neg (show ¬ e.length * 8 + CS ≠ W * 11 by omega), hrw]
    rfl
  · have hm : consumed.length = e.length + (CS + 7) / 8 := by
      rw [hclen]
      omega
    have htakeN : consumed.take e.length = e := by
      have h1 : (consumed ++ rest).take e.length = consumed.take e.length := by
        rw [List.take_append_eq_append_take, show e.length - consumed.length = 0 by omega,
          List.take_zero, List.append_nil]
      have h2 : (e ++ sha256 e).take e.length = e := by
        rw [List.take_append_eq_append_take, Nat.sub_self, List.take_zero, List.append_nil,
          List.take_length]
      rw [← h1, ← hsplit, h2]
    obtain ⟨hwb, hwlen, hwval⟩ := bitWriterBy11_correct vs hvs
    rw [hvslen] at hwlen hwval
    have hwm : (bitWriterBy11 vs).length = e.length + (CS + 7) / 8 := by
      rw [hwlen]
      omega
    have hEeq : 8 * ((11 * W + 7) / 8) - 11 * W = E := by omega
    rw [hEeq] at hwval
    have hElt : E < 8 := by omega
    have hconsb : ∀ b ∈ consumed, b < 256 := by
      intro b hb
      refine hbs_lt b ?_
      rw [hsplit]
      exact List.mem_append_left rest hb
    have hlens : (bitWriterBy11 vs).length = consumed.length := by rw [hwm, hm]
    have hent : (bitWriterBy11 vs).take e.length
        ++ List.replicate (e.length - (bitWriterBy11 vs).length) 0
        = (bitWriterBy11 vs).take e.length := by
      rw [show e.length - (bitWriterBy11 vs).length = 0 by omega, List.replicate_zero,
        List.append_nil]
    by_cases hcs0 : CS = 0
    · have hE0 : E = 0 := by omega
      have hd0 : d = 0 := by
        rw [hE0] at hd
        omega
      rw [hE0, pow_zero, mul_one] at hwval
      rw [hE0, pow_zero, mul_one, hd0, add_zero] at heq
      have hout : bitWriterBy11 vs = consumed :=
        beVal_inj 256 (by norm_num) _ _ hlens hwb hconsb (by omega)
      have htake : (bitWriterBy11 vs).take e.length = e := by rw [hout, htakeN]
      simp only [from_mnemonics, hent]
      rw [if_neg (not_not_intro hCS), if_neg (show ¬ e.length * 8 + CS ≠ W * 11 by omega),
        if_neg (show ¬ e.length + 256 < (bitWriterBy11 vs).length by omega),
        if_neg (show ¬ 0 < CS by omega), htake]
    · -- CS > 0: the writer output differs from the consumed prefix at
      -- most in the low E bits of the final byte
      have hne : bitWriterBy11 vs ≠ [] := by
        intro h0
        rw [h0] at hwm
        simp at hwm
        omega
      obtain ⟨hdrop, hdvd, hlast⟩ :=
        byte_stream_split hne hlens hwb hconsb (by omega) hd hwval heq.symm
      have hagree : ∀ j, j + 1 < consumed.length →
          (bitWriterBy11 vs).getD j 0 = consumed.getD j 0 := by
        intro j hj
        rw [← getD_dropLast (l := bitWriterBy11 vs) (by omega), hdrop, getD_dropLast hj]
      have htake : (bitWriterBy11 vs).take e.length = e := by
        have hNlt : e.length + 1 ≤ consumed.length := by omega
        have h1 : (bitWriterBy11 vs).take e.length
            = ((bitWriterBy11 vs).dropLast).take e.length := by
          rw [List.dropLast_eq_take, List.take_take, min_eq_left (by omega)]
        have h2 : consumed.take e.length = (consumed.dropLast).take e.length := by
          rw [List.dropLast_eq_take, List.take_take, min_eq_left (by omega)]
        rw [h1, hdrop, ← h2, htakeN]
      have hshaeq : consumed.drop e.length ++ rest = sha256 e := by
        have h1 : (consumed ++ rest).drop e.length = consumed.drop e.length ++ rest := by
          rw [List.drop_append_eq_append_drop, show e.length - consumed.length = 0 by omega,
            List.drop_zero]
        have h2 : (e ++ sha256 e).drop e.length = sha256 e := by
          rw [List.drop_append_eq_append_drop, Nat.sub_self, List.drop_zero, List.drop_length,
            List.nil_append]
        rw [← h1, ← hsplit, h2]
      have hdroplen : (consumed.drop e.length).length = (CS + 7) / 8 := by
        rw [List.length_drop, hm]
        omega
      have hsha_getD : ∀ i, i < (CS + 7) / 8 →
          (sha256 e).getD i 0 = consumed.getD (e.length + i) 0 := by
        intro i hi
        rw [← hshaeq, getD_append_left (by rw [hdroplen]; omega), getD_drop]
      have hOk : checksumOkFrom CS 0 ((bitWriterBy11 vs).drop e.length) (sha256 e) := by
        constructor
        · intro i hi0 hi
          rw [Nat.zero_add] at hi
          rw [getD_drop, hsha_getD i (by omega)]
          by_cases hE0 : E = 0
          · have hd0 : d = 0 := by
              rw [hE0] at hd
              omega
            rw [hE0, pow_zero, mul_one] at hwval
            rw [hE0, pow_zero, mul_one, hd0, add_zero] at heq
            have hout : bitWriterBy11 vs = consumed :=
              beVal_inj 256 (by norm_num) _ _ hlens hwb hconsb (by omega)
            rw [hout]
          · have hrem : CS % 8 ≠ 0 := by omega
            exact hagree (e.length + i) (by omega)
        · intro hrem
          have hE0 : E ≠ 0 := by omega
          have hEr : E + CS % 8 = 8 := by omega
          have hidx : e.length + CS / 8 = consumed.length - 1 := by omega
          rw [Nat.zero_add, getD_drop, hsha_getD (CS / 8) (by omega), hidx,
            ← lastByte_getD consumed, show (bitWriterBy11 vs).getD (consumed.length - 1) 0
              = (bitWriterBy11 vs).getD ((bitWriterBy11 vs).length - 1) 0 by rw [hlens],
            ← lastByte_getD (bitWriterBy11 vs)]
          have hlcb : lastByte consumed < 256 :=
            hconsb _ (lastByte_mem consumed (by
              intro hc0
              rw [hc0] at hm
              simp at hm
              omega))
          have := masked_eq (a := lastByte consumed) (b := lastByte (bitWriterBy11 vs))
            (d := d) (e := E) (r := CS % 8) (by omega) hlcb hd hdvd hlast
          rw [show 8 - CS % 8 = E by omega]
          exact this.symm
      obtain ⟨r, hr, hiff⟩ := checksumGo_spec (CS + 1) CS 0
        ((bitWriterBy11 vs).drop e.length) (sha256 e) (by omega)
        (by rw [List.length_drop, hwm]; omega)
        (by rw [sha256_length]; omega)
      have hrt : r = true := hiff.mpr hOk
      simp only [from_mnemonics, hent]
      rw [if_neg (not_not_intro hCS), if_neg (show ¬ e.length * 8 + CS ≠ W * 11 by omega),
        if_neg (show ¬ e.length + 256 < (bitWriterBy11 vs).length by omega),
        if_pos (show 0 < CS by omega),
        if_neg (show ¬ (bitWriterBy11 vs).length < e.length by omega), htake, hr, hrt]

theorem claim_C1_witness :
    4 ≤ 256 ∧ (List.replicate 2 7).length * 8 + 6 = 2 * 11 ∧
    (∃ vs, to_mnemonics 2 6 (List.replicate 2 7) = some (.ok vs) ∧
      from_mnemonics (List.replicate 2 7).length 2 6 vs
        = some (.ok (List.replicate 2 7))) :=
  ⟨by norm_num, by decide,
    claim_C1 2 6 (List.replicate 2 7) (by norm_num) (by decide) (by decide)⟩

/-- The resolution loop stops at the first unresolvable token and
reports its absolute position. -/
theorem resolveGo_err (d : Language) :
    ∀ (toks : List (List Char)) (i0 i : Nat) (e : WordNotFound),
      i < toks.length →
      (∀ j, j < i → ∃ v, d.lookup_mnemonic (toks.getD j []) = .ok v) →
      d.lookup_mnemonic (toks.getD i []) = .error e →
      resolveGo d i0 toks = .error (.WordError (i0 + i) e) := by
  intro toks
  induction toks with
  | nil =>
      intro i0 i e hi
      simp at hi
  | cons t ts ih =>
      intro i0 i e hi hok herr
      cases i with
      | zero =>
          have h0 : d.lookup_mnemonic t = .error e := by simpa using herr
          simp only [resolveGo, h0, Nat.add_zero]
      | succ i =>
          obtain ⟨v, hv⟩ := hok 0 (by omega)
          have hv2 : d.lookup_mnemonic t = .ok v := by simpa using hv
          have hrec := ih (i0 + 1) i e (by simpa using hi)
            (fun j hj => by simpa using hok (j + 1) (by omega))
            (by simpa using herr)
          rw [show i0 + (i + 1) = i0 + 1 + i by omega]
          simp only [resolveGo, hv2, hrec]

/-- The resolution loop maps a list of words whose lookups all succeed
back to their indices. -/
theorem resolveGo_map (d : Language) (m : List Nat)
    (h : ∀ v ∈ m, d.lookup_mnemonic (d.lookup_word v) = .ok v) :
    ∀ i0, resolveGo d i0 (m.map d.lookup_word) = .ok m := by
  induction m with
  | nil => intro i0; rfl
  | cons v vs ih =>
      intro i0
      have hv : d.lookup_mnemonic (d.lookup_word v) = .ok v := h v (by simp)
      have hrec := ih (fun x hx => h x (by simp [hx])) (i0 + 1)
      simp only [List.map_cons, resolveGo, hv, hrec]

/-- C7: for every dictionary and every input string, `from_string`
splits the string on the dictionary separator; a token count different
from `W` fails with `InvalidWords` carrying `expected = W` and the
actual count; otherwise tokens are resolved in order and the first token
the dictionary cannot resolve fails with a `WordError` tagged with that
token's position, regardless of the tokens after it. -/
theorem claim_C7 (d : Language) (W : Nat) (s : List Char) :
    ((splitOnList d.separator s).length ≠ W →
      Mnemonics.from_string d W s
        = .error (.InvalidWords W (splitOnList d.separator s).length)) ∧
    (∀ i e, (splitOnList d.separator s).length = W → i < W →
      (∀ j, j < i → ∃ v, d.lookup_mnemonic ((splitOnList d.separator s).getD j []) = .ok v) →
      d.lookup_mnemonic ((splitOnList d.separator s).getD i []) = .error e →
      Mnemonics.from_string d W s = .error (.WordError i e)) := by
  constructor
  · intro hne
    simp only [Mnemonics.from_string]
    rw [if_neg hne]
  · intro i e hlen hi hok herr
    simp only [Mnemonics.from_string]
    rw [if_pos hlen]
    have := resolveGo_err d (splitOnList d.separator s) 0 i e (by omega) hok herr
    simpa using this

theorem claim_C7_witness :
    Mnemonics.from_string testDict 2 ['a'] = .error (.InvalidWords 2 1) ∧
    Mnemonics.from_string testDict 2 ['a', ' ', 'b'] = .error (.WordError 1 ⟨['b']⟩) :=
  ⟨(claim_C7 testDict 2 ['a']).1 (by decide),
   (claim_C7 testDict 2 ['a', ' ', 'b']).2 1 ⟨['b']⟩ (by decide) (by decide)
     (fun j hj => by
       have hj0 : j = 0 := by omega
       subst hj0
       exact ⟨0, rfl⟩)
     rfl⟩

theorem containsSub_replicate_b (i : Nat) :
    containsSub (List.replicate i 'b') ['a', 'a'] = false := by
  induction i with
  | zero => rfl
  | succ i ih =>
      show (hasPrefixList ['a', 'a'] ('b' :: List.replicate i 'b')
        || containsSub (List.replicate i 'b') ['a', 'a']) = false
      rw [ih]
      simp [hasPrefixList]

theorem overlap_no_contains (i : Nat) :
    containsSub (overlapDict.lookup_word i) overlapDict.separator = false := by
  show (hasPrefixList ['a', 'a'] ('a' :: List.replicate i 'b')
    || containsSub (List.replicate i 'b') ['a', 'a']) = false
  rw [containsSub_replicate_b]
  cases i with
  | zero => rfl
  | succ i => simp [hasPrefixList]

/-- C10 counterexample: the claimed round trip fails.  With the overlap
dictionary (which satisfies both hypotheses of the claim) the rendered
two-word phrase `aaaa` splits into three tokens; and for `W = 0` the
rendered empty phrase splits into one token, so the round trip also
fails at `W = 0`. -/
theorem claim_C10_counterexample :
    (¬ C10_claim) ∧
    Mnemonics.from_string overlapDict 0 (Mnemonics.to_string overlapDict []) ≠ .ok [] := by
  constructor
  · intro h
    have hbad := h overlapDict 2 [0, 0] rfl (by decide)
      (fun i _ => by simp [overlapDict])
      (fun i _ => overlap_no_contains i)
    rw [show Mnemonics.from_string overlapDict 2 (Mnemonics.to_string overlapDict [0, 0])
        = .error (.InvalidWords 2 3) from rfl] at hbad
    exact Except.noConfusion hbad
  · intro h
    rw [show Mnemonics.from_string overlapDict 0 (Mnemonics.to_string overlapDict [])
        = .error (.InvalidWords 0 1) from rfl] at h
    exact Except.noConfusion h

theorem containsSub_single {w : List Char} {c : Char} :
    containsSub w [c] = false ↔ c ∉ w := by
  induction w with
  | nil => simp [containsSub, List.isEmpty]
  | cons x t ih =>
      show (hasPrefixList [c] (x :: t) || containsSub t [c]) = false ↔ _
      have hp : hasPrefixList [c] (x :: t) = (c == x) := by simp [hasPrefixList]
      rw [hp]
      simp only [Bool.or_eq_false_iff, ih, List.mem_cons, not_or, beq_eq_false_iff_ne]

theorem splitGo_no_c (c : Char) (s : List Char) (h : c ∉ s) :
    ∀ (acc : List Char) (fuel : Nat), s.length < fuel →
      splitGo [c] fuel s acc = [acc.reverse ++ s] := by
  induction s with
  | nil =>
      intro acc fuel hf
      cases fuel with
      | zero => omega
      | succ f => simp [splitGo]
  | cons x rest ih =>
      intro acc fuel hf
      cases fuel with
      | zero => omega
      | succ f =>
          have hcx : (c == x) = false := by
            simp only [beq_eq_false_iff_ne]
            intro he
            exact h (he ▸ List.mem_cons_self x rest)
          show splitGo [c] (f + 1) (x :: rest) acc = [acc.reverse ++ x :: rest]
          rw [show splitGo [c] (f + 1) (x :: rest) acc
              = if hasPrefixList [c] (x :: rest) then
                  acc.reverse :: splitGo [c] f (List.drop 1 (x :: rest)) []
                else splitGo [c] f rest (x :: acc) from rfl]
          rw [show hasPrefixList [c] (x :: rest) = (c == x) from by simp [hasPrefixList], hcx,
            if_neg (by simp)]
          rw [ih (fun hm => h (List.mem_cons_of_mem x hm)) (x :: acc) f (by simpa using hf)]
          simp

theorem splitGo_word (c : Char) (w : List Char) (hw : c ∉ w) :
    ∀ (rest acc : List Char) (fuel : Nat), w.length + 1 + rest.length ≤ fuel →
      splitGo [c] fuel (w ++ c :: rest) acc
        = (acc.reverse ++ w) :: splitGo [c] (fuel - (w.length + 1)) rest [] := by
  induction w with
  | nil =>
      intro rest acc fuel hf
      cases fuel with
      | zero => omega
      | succ f =>
          show splitGo [c] (f + 1) (c :: rest) acc
            = (acc.reverse ++ []) :: splitGo [c] (f + 1 - 1) rest []
          rw [show splitGo [c] (f + 1) (c :: rest) acc
              = if hasPrefixList [c] (c :: rest) then
                  acc.reverse :: splitGo [c] f (List.drop 1 (c :: rest)) []
                else splitGo [c] f rest (c :: acc) from rfl]
          rw [show hasPrefixList [c] (c :: rest) = (c == c) from by simp [hasPrefixList]]
          simp
  | cons x w ih =>
      intro rest acc fuel hf
      cases fuel with
      | zero => omega
      | succ f =>
          have hcx : (c == x) = false := by
            simp only [beq_eq_false_iff_ne]
            intro he
            exact hw (he ▸ List.mem_cons_self x w)
          show splitGo [c] (f + 1) (x :: (w ++ c :: rest)) acc
            = (acc.reverse ++ x :: w) :: splitGo [c] (f + 1 - (w.length + 1 + 1)) rest []
          rw [show splitGo [c] (f + 1) (x :: (w ++ c :: rest)) acc
              = if hasPrefixList [c] (x :: (w ++ c :: rest)) then
                  acc.reverse :: splitGo [c] f (List.drop 1 (x :: (w ++ c :: rest))) []
                else splitGo [c] f (w ++ c :: rest) (x :: acc) from rfl]
          rw [show hasPrefixList [c] (x :: (w ++ c :: rest)) = (c == x) from by
              simp [hasPrefixList], hcx, if_neg (by simp)]
          rw [ih (fun hm => hw (List.mem_cons_of_mem x hm)) rest (x :: acc) f
            (by simp at hf ⊢; omega)]
          rw [show f - (w.length + 1) = f + 1 - (w.length + 1 + 1) by omega]
          simp

theorem split_to_string (d : Language) (c : Char) (hsep : d.separator = [c]) :
    ∀ m : List Nat, m ≠ [] → (∀ v ∈ m, c ∉ d.lookup_word v) →
      splitOnList d.separator (Mnemonics.to_string d m) = m.map d.lookup_word := by
  intro m
  induction m with
  | nil => intro h; exact absurd rfl h
  | cons v vs ih =>
      intro _ hnc
      cases vs with
      | nil =>
          rw [hsep]
          show splitOnList [c] (d.lookup_word v) = [d.lookup_word v]
          rw [splitOnList, if_neg (by simp)]
          rw [splitGo_no_c c _ (hnc v (by simp)) [] _ (by omega)]
          simp
      | cons v2 vs2 =>
          have hrec := ih (by simp) (fun x hx => hnc x (by simp [hx]))
          rw [hsep] at hrec
          rw [show Mnemonics.to_string d (v :: v2 :: vs2)
              = d.lookup_word v ++ d.separator ++ Mnemonics.to_string d (v2 :: vs2) from rfl,
            hsep]
          rw [splitOnList, if_neg (by simp)] at hrec ⊢
          rw [show d.lookup_word v ++ [c] ++ Mnemonics.to_string d (v2 :: vs2)
              = d.lookup_word v ++ c :: Mnemonics.to_string d (v2 :: vs2) from by simp]
          rw [splitGo_word c _ (hnc v (by simp)) _ []
            ((d.lookup_word v ++ c :: Mnemonics.to_string d (v2 :: vs2)).length + 1)
            (by simp [List.length_append]; omega)]
          rw [show (d.lookup_word v ++ c :: Mnemonics.to_string d (v2 :: vs2)).length + 1
              - ((d.lookup_word v).length + 1)
              = (Mnemonics.to_string d (v2 :: vs2)).length + 1 from by
              simp [List.length_append]]
          rw [hrec]
          simp

/-- C10 amended: the render/parse identity holds once `W ≥ 1` and the
separator is a single character that occurs in no dictionary word (the
original hypotheses admit multi-character separators that overlap across
word boundaries, and fail for `W = 0`). -/
theorem claim_C10_amended (d : Language) (c : Char) (W : Nat) (m : List Nat)
    (hsep : d.separator = [c]) (hW : 0 < W) (hm : m.length = W)
    (hv : ∀ v ∈ m, v ≤ 2047)
    (hrt : ∀ i, i < 2048 → d.lookup_mnemonic (d.lookup_word i) = .ok i)
    (hnc : ∀ i, i < 2048 → containsSub (d.lookup_word i) d.separator = false) :
    Mnemonics.from_string d W (Mnemonics.to_string d m) = .ok m := by
  have hmne : m ≠ [] := by
    intro h0
    rw [h0] at hm
    simp at hm
    omega
  have hnc2 : ∀ v ∈ m, c ∉ d.lookup_word v := by
    intro v hvm
    have := hnc v (by have := hv v hvm; omega)
    rw [hsep] at this
    exact containsSub_single.mp this
  have hsplit := split_to_string d c hsep m hmne hnc2
  simp only [Mnemonics.from_string, hsplit]
  rw [if_pos (by rw [List.length_map, hm])]
  exact resolveGo_map d m
    (fun v hvm => hrt v (by have := hv v hvm; omega)) 0

theorem specEmitGo_small (fuel acc bits : Nat) (h : bits < 8) :
    specEmitGo fuel acc bits = ([], bits) := by
  cases fuel with
  | zero => rfl
  | succ f =>
      simp only [specEmitGo]
      rw [if_neg (by omega)]

theorem specEmitGo_succ (fuel acc bits : Nat) (h : 8 ≤ bits) :
    specEmitGo (fuel + 1) acc bits
      = (((acc >>> (bits - 8)) % 256) :: (specEmitGo fuel acc (bits - 8)).1,
         (specEmitGo fuel acc (bits - 8)).2) := by
  simp only [specEmitGo]
  rw [if_pos h]

theorem specEmitGo_one (fuel acc bits : Nat) (hf : 1 ≤ fuel) (h8 : 8 ≤ bits)
    (h16 : bits < 16) :
    specEmitGo fuel acc bits = ([(acc >>> (bits - 8)) % 256], bits - 8) := by
  cases fuel with
  | zero => omega
  | succ f =>
      rw [specEmitGo_succ f acc bits h8,
        specEmitGo_small f acc (bits - 8) (by omega)]

theorem specEmitGo_two (fuel acc bits : Nat) (hf : 2 ≤ fuel) (h16 : 16 ≤ bits)
    (h24 : bits < 24) :
    specEmitGo fuel acc bits
      = ([(acc >>> (bits - 8)) % 256, (acc >>> (bits - 16)) % 256], bits - 16) := by
  cases fuel with
  | zero => omega
  | succ f =>
      rw [specEmitGo_succ f acc bits (by omega),
        specEmitGo_one f acc (bits - 8) (by omega) (by omega) (by omega)]
      rw [show bits - 8 - 8 = bits - 16 by omega]

/-- C5: the enumerated `WriteState` machine refines the spec's
accumulator-plus-bit-count formulation.  For every well-formed state
with pending bit count `p` in `0..7` and every 11-bit symbol `v`,
`append11` emits 1 byte when `p + 11 < 16` and 2 bytes otherwise, leaves
`(p + 11) % 8` pending bits, its emitted bytes and retained bits agree
with the accumulator model, and `finalize` agrees with the model's
finalization (pending bits left-justified and zero-padded, nothing on
zero pending bits). -/
theorem claim_C5 (s : WriteState) (v : Nat) (hs : s.WF) (hv : v < 2048) :
    (writeStep s v).1.length = (if s.bits + 11 < 16 then 1 else 2) ∧
    (writeStep s v).2.bits = (s.bits + 11) % 8 ∧
    (specAppend11 s.val s.bits v).2.2 = (s.bits + 11) % 8 ∧
    (specAppend11 s.val s.bits v).1 = (writeStep s v).1 ∧
    (specAppend11 s.val s.bits v).2.1 % 2 ^ ((s.bits + 11) % 8) = (writeStep s v).2.val ∧
    specFinalize s.val s.bits = s.finalizeBytes := by
  cases s with
  | S0 =>
      rw [writeStep_S0 v hv]
      simp only [WriteState.val, WriteState.bits, WriteState.finalizeBytes, specAppend11,
        specFinalize, Nat.zero_shiftLeft, Nat.zero_or]
      rw [specEmitGo_one 11 v 11 (by norm_num) (by norm_num) (by norm_num)]
      simp only [Nat.shiftRight_eq_div_pow]
      norm_num
      omega
  | S1 c =>
      have hc : c < 2 := hs
      rw [writeStep_S1 c v hc hv]
      simp only [WriteState.val, WriteState.bits, WriteState.finalizeBytes, specAppend11,
        specFinalize]
      rw [show (c <<< 11) ||| v = c * 2048 + v from by
        rw [Nat.shiftLeft_eq]
        norm_num
        exact lor_small 11 (by norm_num) (Dvd.intro_left c rfl) hv]
      rw [specEmitGo_one 12 (c * 2048 + v) 12 (by norm_num) (by norm_num) (by norm_num)]
      simp only [Nat.shiftRight_eq_div_pow, Nat.shiftLeft_eq, List.cons.injEq]
      norm_num
      refine ⟨by omega, by omega, by omega⟩
  | S2 c =>
      have hc : c < 4 := hs
      rw [writeStep_S2 c v hc hv]
      simp only [WriteState.val, WriteState.bits, WriteState.finalizeBytes, specAppend11,
        specFinalize]
      rw [show (c <<< 11) ||| v = c * 2048 + v from by
        rw [Nat.shiftLeft_eq]
        norm_num
        exact lor_small 11 (by norm_num) (Dvd.intro_left c rfl) hv]
      rw [specEmitGo_one 13 (c * 2048 + v) 13 (by norm_num) (by norm_num) (by norm_num)]
      simp only [Nat.shiftRight_eq_div_pow, Nat.shiftLeft_eq, List.cons.injEq]
      norm_num
      refine ⟨by omega, by omega, by omega⟩
  | S3 c =>
      have hc : c < 8 := hs
      rw [writeStep_S3 c v hc hv]
      simp only [WriteState.val, WriteState.bits, WriteState.finalizeBytes, specAppend11,
        specFinalize]
      rw [show (c <<< 11) ||| v = c * 2048 + v from by
        rw [Nat.shiftLeft_eq]
        norm_num
        exact lor_small 11 (by norm_num) (Dvd.intro_left c rfl) hv]
      rw [specEmitGo_one 14 (c * 2048 + v) 14 (by norm_num) (by norm_num) (by norm_num)]
      simp only [Nat.shiftRight_eq_div_pow, Nat.shiftLeft_eq, List.cons.injEq]
      norm_num
      refine ⟨by omega, by omega, by omega⟩
  | S4 c =>
      have hc : c < 16 := hs
      rw [writeStep_S4 c v hc hv]
      simp only [WriteState.val, WriteState.bits, WriteState.finalizeBytes, specAppend11,
        specFinalize]
      rw [show (c <<< 11) ||| v = c * 2048 + v from by
        rw [Nat.shiftLeft_eq]
        norm_num
        exact lor_small 11 (by norm_num) (Dvd.intro_left c rfl) hv]
      rw [specEmitGo_one 15 (c * 2048 + v) 15 (by norm_num) (by norm_num) (by norm_num)]
      simp only [Nat.shiftRight_eq_div_pow, Nat.shiftLeft_eq, List.cons.injEq]
      norm_num
      refine ⟨by omega, by omega, by omega⟩
  | S5 c =>
      have hc : c < 32 := hs
      rw [writeStep_S5 c v hc hv]
      simp only [WriteState.val, WriteState.bits, WriteState.finalizeBytes, specAppend11,
        specFinalize]
      rw [show (c <<< 11) ||| v = c * 2048 + v from by
        rw [Nat.shiftLeft_eq]
        norm_num
        exact lor_small 11 (by norm_num) (Dvd.intro_left c rfl) hv]
      rw [specEmitGo_two 16 (c * 2048 + v) 16 (by norm_num) (by norm_num) (by norm_num)]
      simp only [Nat.shiftRight_eq_div_pow, Nat.shiftLeft_eq, List.cons.injEq]
      norm_num
      refine ⟨⟨by omega, by omega⟩, by omega, by omega⟩
  | S6 c =>
      have hc : c < 64 := hs
      rw [writeStep_S6 c v hc hv]
      simp only [WriteState.val, WriteState.bits, WriteState.finalizeBytes, specAppend11,
        specFinalize]
      rw [show (c <<< 11) ||| v = c * 2048 + v from by
        rw [Nat.shiftLeft_eq]
        norm_num
        exact lor_small 11 (by norm_num) (Dvd.intro_left c rfl) hv]
      rw [specEmitGo_two 17 (c * 2048 + v) 17 (by norm_num) (by norm_num) (by norm_num)]
      simp only [Nat.shiftRight_eq_div_pow, Nat.shiftLeft_eq, List.cons.injEq]
      norm_num
      refine ⟨⟨by omega, by omega⟩, by omega, by omega⟩
  | S7 c =>
      have hc : c < 128 := hs
      rw [writeStep_S7 c v hc hv]
      simp only [WriteState.val, WriteState.bits, WriteState.finalizeBytes, specAppend11,
        specFinalize]
      rw [show (c <<< 11) ||| v = c * 2048 + v from by
        rw [Nat.shiftLeft_eq]
        norm_num
        exact lor_small 11 (by norm_num) (Dvd.intro_left c rfl) hv]
      rw [specEmitGo_two 18 (c * 2048 + v) 18 (by norm_num) (by norm_num) (by norm_num)]
      simp only [Nat.shiftRight_eq_div_pow, Nat.shiftLeft_eq, List.cons.injEq]
      norm_num
      refine ⟨⟨by omega, by omega⟩, by omega, by omega⟩

theorem claim_C5_witness :
    WriteState.WF (.S6 5) ∧ (7 : Nat) < 2048 ∧
    ((writeStep (.S6 5) 7).1.length = (if (WriteState.S6 5).bits + 11 < 16 then 1 else 2) ∧
     (writeStep (.S6 5) 7).2.bits = ((WriteState.S6 5).bits + 11) % 8 ∧
     (specAppend11 (WriteState.S6 5).val (WriteState.S6 5).bits 7).2.2
       = ((WriteState.S6 5).bits + 11) % 8 ∧
     (specAppend11 (WriteState.S6 5).val (WriteState.S6 5).bits 7).1 = (writeStep (.S6 5) 7).1 ∧
     (specAppend11 (WriteState.S6 5).val (WriteState.S6 5).bits 7).2.1
       % 2 ^ (((WriteState.S6 5).bits + 11) % 8) = (writeStep (.S6 5) 7).2.val ∧
     specFinalize (WriteState.S6 5).val (WriteState.S6 5).bits
       = (WriteState.S6 5).finalizeBytes) :=
  ⟨(by norm_num : (5 : Nat) < 2 ^ 6), by decide,
   claim_C5 (.S6 5) 7 (by norm_num : (5 : Nat) < 2 ^ 6) (by decide)⟩

theorem claim_C10_amended_witness :
    Mnemonics.from_string monoDict 2 (Mnemonics.to_string monoDict [5, 0]) = .ok [5, 0] :=
  claim_C10_amended monoDict ' ' 2 [5, 0] rfl (by norm_num) rfl (by decide)
    (fun i _ => by simp [monoDict])
    (fun i _ => by
      rw [show monoDict.separator = [' '] from rfl]
      refine containsSub_single.mpr ?_
      intro hmem
      rcases List.mem_cons.mp hmem with h | h
      · exact absurd h (by decide)
      · exact absurd (List.eq_of_mem_replicate h) (by decide))

/-- C8: the `MnemonicIndex` smart constructor accepts exactly the values
up to 2047 and returns the stored value unchanged; larger `u16` values
yield `None` and are never truncated or wrapped. -/
theorem claim_C8 (m : Nat) (hm : m < 65536) :
    (m ≤ 2047 → MnemonicIndex.new m = some m) ∧
    (2047 < m → MnemonicIndex.new m = none) := by
  constructor
  · intro h
    simp only [MnemonicIndex.new, MAX_MNEMONIC_VALUE]
    rw [if_pos h]
  · intro h
    simp only [MnemonicIndex.new, MAX_MNEMONIC_VALUE]
    rw [if_neg (by omega)]

theorem claim_C8_witness :
    (3000 : Nat) < 65536 ∧
    (((3000 : Nat) ≤ 2047 → MnemonicIndex.new 3000 = some 3000) ∧
     (2047 < (3000 : Nat) → MnemonicIndex.new 3000 = none)) :=
  ⟨by decide, claim_C8 3000 (by decide)⟩

/-- C9: every symbol emitted by `ReadState::read8` is below 2048, so the
internal `MnemonicIndex::new(..).unwrap()` inside `to_mnemonics` never
fails: for every entropy and valid size triple, `to_mnemonics` returns
an `Ok` phrase (its `None`/panic branch is unreachable). -/
theorem claim_C9 :
    (∀ (s : ReadState) (b : Nat), s.WF → b < 256 →
      ∀ (n : Nat) (s2 : ReadState), s.read8 b = .One n s2 →
        MnemonicIndex.new n = some n) ∧
    (∀ (W CS : Nat) (e : List Nat), CS ≤ 256 → e.length * 8 + CS = W * 11 →
      (∀ x ∈ e, x < 256) → ∃ vs, to_mnemonics W CS e = some (.ok vs)) := by
  constructor
  · intro s b hs hb n s2 h
    have hn := (read8_one_correct hs hb h).2.2.1
    simp only [MnemonicIndex.new, MAX_MNEMONIC_VALUE]
    rw [if_pos (by omega)]
  · intro W CS e hCS hvalid he
    have hbs : ∀ b ∈ e ++ sha256 e, b < 256 := by
      intro b hb
      rcases List.mem_append.mp hb with h | h
      · exact he b h
      · exact sha256_bytes_lt e b h
    have hk : 11 * W ≤ ReadState.S0.bits + 8 * (e ++ sha256 e).length := by
      rw [List.length_append, sha256_length]
      rw [show ReadState.S0.bits = 0 from rfl]
      omega
    obtain ⟨out, _, _, _, _, hr, _⟩ :=
      readWords_spec (e ++ sha256 e) W .S0 Nat.zero_lt_one hbs hk
    refine ⟨out, ?_⟩
    simp only [to_mnemonics]
    rw [if_neg (not_not_intro hCS), if_neg (not_not_intro hvalid), hr]
    rfl

set_option maxRecDepth 1000000 in
/-- C6: with `N = 16`, `W = 12`, `CS = 4` and the English dictionary,
encoding 16 zero bytes yields the symbols `[0 x 11, 3]`, whose rendering
is the phrase `abandon` eleven times followed by `about`; parsing that
exact phrase back gives the same symbols, and decoding them with the
same parameters returns the 16 zero bytes without error. -/
theorem claim_C6 :
    to_mnemonics 12 4 (List.replicate 16 0)
      = some (.ok [0, 0, 0, 0, 0, 0, 0, 0, 0, 0, 0, 3]) ∧
    Mnemonics.to_string ENGLISH [0, 0, 0, 0, 0, 0, 0, 0, 0, 0, 0, 3] = scenarioPhrase ∧
    Mnemonics.from_string ENGLISH 12 scenarioPhrase
      = .ok [0, 0, 0, 0, 0, 0, 0, 0, 0, 0, 0, 3] ∧
    from_mnemonics 16 12 4 [0, 0, 0, 0, 0, 0, 0, 0, 0, 0, 0, 3]
      = some (.ok (List.replicate 16 0)) :=
  ⟨rfl, rfl, rfl, rfl⟩

theorem claim_C9_witness :
    MnemonicIndex.new 8 = some 8 ∧
    ∃ vs, to_mnemonics 2 6 (List.replicate 2 7) = some (.ok vs) :=
  ⟨claim_C9.1 (.S3 0) 8 (by norm_num : (0 : Nat) < 2 ^ 3) (by decide) 8 .S0 rfl,
   claim_C9.2 2 6 (List.replicate 2 7) (by decide) (by decide)
     (fun x hx => by
       rw [List.eq_of_mem_replicate hx]
       decide)⟩

end Bip39
